import Mathlib

/-!
# PCD-TF: user-based collaborative filtering, verified core

A shallow embedding of the algorithmic core of the repository
(`internal/knn/knn.go`, `cmd/api/main.go`, `cmd/nodo/main.go`, `knn.go`).

Conventions of the embedding.

* Go `float64` values are idealised as elements of an exact ordered field `α`
  (the rationals for concrete evaluation, the reals where `math.Sqrt` is
  needed).  Rounding, overflow and NaN are outside the model.  The theorems on
  the numerical code therefore say which quantities the code combines and in
  which expression, for any function in the place of `math.Sqrt`; a bound or an
  exact value that only exact arithmetic delivers (`cosine_abs_le_one`,
  `cosine_self_of_ne_zero`, `predicted_between`) is a lemma about the idealised
  model and is not stated of the `float64` results.
* A Go `map[string]V` is a `GoMap V`: the list of its entries, in the order a
  `range` loop visits them, with pairwise different keys.
* `sort.Slice` and `math.Sqrt` are library functions; the functions that call
  them take them as parameters.  `sort.Slice` is only assumed to meet its
  documented contract `SortSliceSpec` (it is not stable); `insertionSortLess` is
  the insertion sort the Go runtime runs on short slices.
* Go `int` arguments that the callers only pass as non-negative numbers
  (`k`, `n`, `parts`) are natural numbers; a negative `k` or `n` makes the slice
  expression `list[:k]` panic and is not modelled.
-/

namespace PCD

/-! ## Go maps -/

/-- A Go map with string keys: its entries in iteration order, keys distinct. -/
structure GoMap (V : Type) where
  entries : List (String × V)
  nodup : (entries.map Prod.fst).Nodup

namespace GoMap

variable {V : Type}

/-- The empty map, `make(map[string]V)`. -/
def empty : GoMap V := ⟨[], List.nodup_nil⟩

/-- The keys, in iteration order. -/
def keys (m : GoMap V) : List String := m.entries.map Prod.fst

/-- The lookup `v, ok := m[k]`. -/
def get? (m : GoMap V) (k : String) : Option V :=
  (m.entries.find? (fun e => e.1 == k)).map Prod.snd

/-- The lookup `m[k]` with the zero value `d` for an absent key. -/
def getD (m : GoMap V) (k : String) (d : V) : V :=
  (m.get? k).getD d

/-- Whether `k` is a key of the map. -/
def contains (m : GoMap V) (k : String) : Bool :=
  (m.get? k).isSome

/-- The assignment `m[k] = v`.  Go leaves the place of a new key in the iteration
order unspecified; here it is visited first. -/
def insert (m : GoMap V) (k : String) (v : V) : GoMap V :=
  ⟨(k, v) :: m.entries.filter (fun e => e.1 != k), by
    rw [List.map_cons, List.nodup_cons]
    constructor
    · intro hk
      rcases List.mem_map.1 hk with ⟨e, he, hek⟩
      have := (List.mem_filter.1 he).2
      simp [hek] at this
    · exact (List.Sublist.map _ (List.filter_sublist _)).nodup m.nodup⟩

end GoMap

/-! ## Cosine similarity (`internal/knn/knn.go`, `knn.go`) -/

section Cosine

variable {α : Type} [LinearOrderedField α]

/-- The first loop of `CosineSimilarity`: one pass over `a` accumulating
`(dot, normA)`. -/
def cosineLoopA (a b : GoMap α) : α × α :=
  a.entries.foldl
    (fun (acc : α × α) (e : String × α) =>
      ((match b.get? e.1 with
        | some rb => acc.1 + e.2 * rb
        | none => acc.1),
       acc.2 + e.2 * e.2))
    (0, 0)

/-- The second loop of `CosineSimilarity`: `normB`. -/
def cosineLoopB (b : GoMap α) : α :=
  b.entries.foldl (fun (acc : α) (e : String × α) => acc + e.2 * e.2) 0

/-- `CosineSimilarity(a, b)`; `sqrt` stands for `math.Sqrt`.  The function
`cosineSimilarity` of `knn.go` is the same code. -/
def CosineSimilarity (sqrt : α → α) (a b : GoMap α) : α :=
  let dot := (cosineLoopA a b).1
  let normA := (cosineLoopA a b).2
  let normB := cosineLoopB b
  if normA = 0 ∨ normB = 0 then 0
  else dot / (sqrt normA * sqrt normB)

end Cosine

/-! ### The similarity as the specification words it -/

section CosineSpec

variable {α : Type} [LinearOrderedField α]

/-- The dot product of the specification: `ratingA * ratingB` summed over the
movies rated in both vectors. -/
def dotSpec (a b : GoMap α) : α :=
  ∑ m in a.keys.toFinset ∩ b.keys.toFinset, a.getD m 0 * b.getD m 0

/-- The self-norm of the specification: `rating ^ 2` summed over every movie of
the vector. -/
def normSpec (a : GoMap α) : α :=
  ∑ m in a.keys.toFinset, a.getD m 0 ^ 2

/-- The similarity of the specification: `dot / (sqrt normA * sqrt normB)`, or
`0` if either norm is `0`. -/
def cosineSpec (sqrt : α → α) (a b : GoMap α) : α :=
  if normSpec a = 0 ∨ normSpec b = 0 then 0
  else dotSpec a b / (sqrt (normSpec a) * sqrt (normSpec b))

end CosineSpec

/-! ## Sorting (`sort.Slice`) -/

/-- The type of `sort.Slice` on slices of `β`: a comparison and a slice give the
reordered slice. -/
abbrev SortSlice (β : Type) := (β → β → Bool) → List β → List β

/-- The documented contract of `sort.Slice`: the result is a rearrangement of the
slice and, when `less` is a strict weak ordering, no element is `less` than one
placed before it.  Stability is not part of the contract. -/
def SortSliceSpec {β : Type} (sortSlice : SortSlice β) : Prop :=
  ∀ (less : β → β → Bool) (l : List β),
    (sortSlice less l).Perm l ∧
    ((∀ a b, less a b = true → less b a = false) →
     (∀ a b c, less b a = false → less c b = false → less c a = false) →
     (sortSlice less l).Pairwise (fun x y => less y x = false))

/-- The inner loop of `insertionSortLessFunc`: the element `x` moves left past
every element it is `less` than.  `rev` is the sorted part, last element first. -/
def insertLess {β : Type} (less : β → β → Bool) (x : β) : List β → List β
  | [] => [x]
  | y :: rev => if less x y then y :: insertLess less x rev else x :: y :: rev

/-- The insertion sort `insertionSortLessFunc` of the Go runtime, which is all that
`sort.Slice` runs on a slice of at most 12 elements (since Go 1.19; of at most 6
elements in the releases before). -/
def insertionSortLess {β : Type} : SortSlice β :=
  fun less l => (l.foldl (fun rev x => insertLess less x rev) []).reverse

/-- One ShellSort pass with gap 6, the loop
`for i := a + 6; i < b; i++ { if less(i, i-6) { swap(i, i-6) } }` of `quickSort_func`. -/
def gapPassLess {β : Type} (less : β → β → Bool) : List β → List β
  | x0 :: x1 :: x2 :: x3 :: x4 :: x5 :: x6 :: rest =>
    if less x6 x0 then x6 :: gapPassLess less (x1 :: x2 :: x3 :: x4 :: x5 :: x0 :: rest)
    else x0 :: gapPassLess less (x1 :: x2 :: x3 :: x4 :: x5 :: x6 :: rest)
  | l => l
termination_by l => l.length

/-- The gap-6 pass followed by insertion sort: what `sort.Slice` of the Go
releases up to 1.18 runs on a slice of at most 12 elements. -/
def gapInsertionSortLess {β : Type} : SortSlice β :=
  fun less l => insertionSortLess less (gapPassLess less l)

/-! ## Neighbours and recommendations (`internal/knn/knn.go`) -/

/-- The struct `network.NeighborResult`. -/
structure NeighborResult (α : Type) where
  UserID : String
  Similarity : α
deriving DecidableEq

/-- The struct `knn.Recommended`. -/
structure Recommended (α : Type) where
  MovieID : String
  Predicted : α
deriving DecidableEq

section Knn

variable {α : Type} [LinearOrderedField α]

/-- `TopK(list, k)`: sort by `Similarity >`, keep the first `k`.  The tail of
`computeNeighborsParallel` in `knn.go` is the same code. -/
def TopK (sortSlice : SortSlice (NeighborResult α)) (list : List (NeighborResult α))
    (k : Nat) : List (NeighborResult α) :=
  let list := sortSlice (fun x y => decide (x.Similarity > y.Similarity)) list
  if list.length > k then list.take k else list

/-- The body of the inner loop of `PredictRatings` for the neighbour `nb` and
the entry `e = (movie, r)` of its ratings; `acc = (scoreSum, weightSum)`. -/
def predictStep (targetRatings : GoMap α) (nb : NeighborResult α)
    (acc : GoMap α × GoMap α) (e : String × α) : GoMap α × GoMap α :=
  if targetRatings.contains e.1 then acc
  else
    (acc.1.insert e.1 (acc.1.getD e.1 0 + nb.Similarity * e.2),
     acc.2.insert e.1 (acc.2.getD e.1 0 + abs nb.Similarity))

/-- The two nested loops of `PredictRatings`: `(scoreSum, weightSum)`. -/
def predictSums (ratings : GoMap (GoMap α)) (targetRatings : GoMap α)
    (neighbors : List (NeighborResult α)) : GoMap α × GoMap α :=
  neighbors.foldl
    (fun acc nb =>
      (ratings.getD nb.UserID GoMap.empty).entries.foldl (predictStep targetRatings nb) acc)
    (GoMap.empty, GoMap.empty)

/-- `PredictRatings(target, ratings, neighbors)`.  The function
`generateRecommendations` of `knn.go` is this code followed by that of
`TopNRecommendations`. -/
def PredictRatings (target : String) (ratings : GoMap (GoMap α))
    (neighbors : List (NeighborResult α)) : List (Recommended α) :=
  let targetRatings := ratings.getD target GoMap.empty
  let sums := predictSums ratings targetRatings neighbors
  sums.1.entries.foldl
    (fun (recs : List (Recommended α)) (e : String × α) =>
      let w := sums.2.getD e.1 0
      if w = 0 then recs else recs ++ [⟨e.1, e.2 / w⟩])
    []

/-- `TopNRecommendations(recs, n)`: sort by `Predicted >`, keep the first `n`. -/
def TopNRecommendations (sortSlice : SortSlice (Recommended α)) (recs : List (Recommended α))
    (n : Nat) : List (Recommended α) :=
  let recs := sortSlice (fun x y => decide (x.Predicted > y.Predicted)) recs
  if recs.length > n then recs.take n else recs

end Knn

/-! ### The prediction as the specification words it -/

section PredictSpec

variable {α : Type} [LinearOrderedField α]

/-- The rating the neighbour `nb` gave to the movie `m`, if it rated it. -/
def neighborRating (ratings : GoMap (GoMap α)) (nb : NeighborResult α) (m : String) :
    Option α :=
  (ratings.getD nb.UserID GoMap.empty).get? m

/-- The values `f nb r`, one for each listed neighbour `nb` that rated `m`, `r` being
its rating. -/
def contributions (f : NeighborResult α → α → α) (ratings : GoMap (GoMap α))
    (neighbors : List (NeighborResult α)) (m : String) : List α :=
  neighbors.filterMap (fun nb => (neighborRating ratings nb m).map (f nb))

/-- The numerator `Σ_i similarity_i * rating_i` over the listed neighbours who rated `m`. -/
def scoreSpec (ratings : GoMap (GoMap α)) (neighbors : List (NeighborResult α))
    (m : String) : α :=
  (contributions (fun nb r => nb.Similarity * r) ratings neighbors m).sum

/-- The aggregate weight `Σ_i |similarity_i|` over the listed neighbours who rated `m`. -/
def weightSpec (ratings : GoMap (GoMap α)) (neighbors : List (NeighborResult α))
    (m : String) : α :=
  (contributions (fun nb _ => abs nb.Similarity) ratings neighbors m).sum

end PredictSpec

/-! ## Partitioning (`cmd/api/main.go`) -/

/-- The loop body of `splitUsersIntoChunks`: the state is `(chunks, i)`.  With
`parts = 0` the index computation `i % parts` panics: `none`. -/
def splitStep {V : Type} (parts : Nat) (st : Option (List (GoMap V) × Nat))
    (e : String × V) : Option (List (GoMap V) × Nat) :=
  st.bind fun s =>
    if parts = 0 then none
    else
      let idx := s.2 % parts
      some (s.1.set idx ((s.1.getD idx GoMap.empty).insert e.1 e.2), s.2 + 1)

/-- `splitUsersIntoChunks(data, parts)`. -/
def splitUsersIntoChunks {V : Type} (data : GoMap V) (parts : Nat) : Option (List (GoMap V)) :=
  (data.entries.foldl (splitStep parts) (some (List.replicate parts GoMap.empty, 0))).map
    Prod.fst

/-! ## The worker node (`cmd/nodo/main.go`) -/

/-- The struct `network.TaskRequest`. -/
structure TaskRequest (α : Type) where
  TargetUser : String
  UserChunk : GoMap (GoMap α)
  K : Nat

section Worker

variable {α : Type} [LinearOrderedField α]

/-- The loop body of `computePartialNeighbors` for the entry `e = (user, ratings)`
of the chunk. -/
def partialStep (sqrt : α → α) (target : String) (targetRatings : GoMap α)
    (results : List (NeighborResult α)) (e : String × GoMap α) : List (NeighborResult α) :=
  if e.1 = target then results
  else
    let sim := CosineSimilarity sqrt targetRatings e.2
    if sim > 0 then results ++ [⟨e.1, sim⟩] else results

/-- `computePartialNeighbors(req)`.  An absent target gives the `nil` map and the
early `return nil`. -/
def computePartialNeighbors (sqrt : α → α) (sortSlice : SortSlice (NeighborResult α))
    (req : TaskRequest α) : List (NeighborResult α) :=
  match req.UserChunk.get? req.TargetUser with
  | none => []
  | some targetRatings =>
    TopK sortSlice
      (req.UserChunk.entries.foldl (partialStep sqrt req.TargetUser targetRatings) []) req.K

end Worker

/-! ## The coordinator (`cmd/api/main.go`) -/

/-- What the coordinator does on the network: a call to `sendTaskToNode` for an
endpoint is issued, and later it returns (with a reply or with an error). -/
inductive NetEvent where
  | issued (addr : String)
  | returned (addr : String)
deriving DecidableEq

/-- The outcome of `handleRecommendUser`: the status 400, 404, 500 with the
error, or 200 with the recommendations. -/
inductive HttpResponse (α ε : Type) where
  | badRequest
  | notFound
  | serverError (err : ε)
  | ok (recs : List (Recommended α))

namespace Api

/-- The constant `K` of `cmd/api/main.go`. -/
def K : Nat := 50

/-- The constant `TopN` of `cmd/api/main.go`. -/
def TopN : Nat := 10

/-- The worker endpoints `nodes` of `cmd/api/main.go`. -/
def nodes : List String := ["pcd-pc4_nodo1:9000", "pcd-pc4_nodo2:9001"]

end Api

section Coordinator

variable {α ε : Type} [LinearOrderedField α]

/-- `sendTaskToNode(addr, target, chunk)`: the request is built and handed to the
network; `call` stands for the exchange with the worker at `addr` (dial, send,
receive), which may fail. -/
def sendTaskToNode (call : String → TaskRequest α → Except ε (List (NeighborResult α)))
    (k : Nat) (addr target : String) (chunk : GoMap (GoMap α)) :
    Except ε (List (NeighborResult α)) :=
  call addr ⟨target, chunk, k⟩

/-- The dispatch loop of `distributedRecommendation` over the remaining
`(addr, chunk)` pairs, from the neighbours and the network events so far: the
collected neighbours or the first error, and the network events. -/
def gatherNeighbors (call : String → TaskRequest α → Except ε (List (NeighborResult α)))
    (k : Nat) (target : String) :
    List (String × GoMap (GoMap α)) → List (NeighborResult α) → List NetEvent →
      Except ε (List (NeighborResult α)) × List NetEvent
  | [], allNeighbors, trace => (Except.ok allNeighbors, trace)
  | (addr, chunk) :: rest, allNeighbors, trace =>
    match sendTaskToNode call k addr target chunk with
    | Except.error err => (Except.error err, trace ++ [NetEvent.issued addr, NetEvent.returned addr])
    | Except.ok part =>
      gatherNeighbors call k target rest (allNeighbors ++ part)
        (trace ++ [NetEvent.issued addr, NetEvent.returned addr])

/-- `distributedRecommendation(targetUser)`, the globals `userRatings`, `nodes`,
`K` and `TopN` being arguments: the recommendations or the error, with the
network events.  `none` is the panic of `splitUsersIntoChunks` without nodes. -/
def distributedRecommendation
    (sortNeighbors : SortSlice (NeighborResult α)) (sortRecs : SortSlice (Recommended α))
    (call : String → TaskRequest α → Except ε (List (NeighborResult α)))
    (userRatings : GoMap (GoMap α)) (nodes : List String) (k topN : Nat)
    (targetUser : String) :
    Option (Except ε (List (Recommended α)) × List NetEvent) :=
  match splitUsersIntoChunks userRatings nodes.length with
  | none => none
  | some chunks =>
    match gatherNeighbors call k targetUser (nodes.zip chunks) [] [] with
    | (Except.error err, trace) => some (Except.error err, trace)
    | (Except.ok allNeighbors, trace) =>
      let topK := TopK sortNeighbors allNeighbors k
      let recs := PredictRatings targetUser userRatings topK
      some (Except.ok (TopNRecommendations sortRecs recs topN), trace)

/-- `handleRecommendUser` for the user id `user` taken from the URL: the response
and the network events.  The asynchronous write of the history is left out. -/
def handleRecommendUser
    (sortNeighbors : SortSlice (NeighborResult α)) (sortRecs : SortSlice (Recommended α))
    (call : String → TaskRequest α → Except ε (List (NeighborResult α)))
    (userRatings : GoMap (GoMap α)) (nodes : List String) (k topN : Nat)
    (user : String) : Option (HttpResponse α ε × List NetEvent) :=
  if user = "" then some (HttpResponse.badRequest, [])
  else if userRatings.contains user = false then some (HttpResponse.notFound, [])
  else
    match distributedRecommendation sortNeighbors sortRecs call userRatings nodes k topN user with
    | none => none
    | some (Except.error err, trace) => some (HttpResponse.serverError err, trace)
    | some (Except.ok recs, trace) => some (HttpResponse.ok recs, trace)

/-- The worker behind an endpoint when the network does not fail:
`handleConnection` answers a request with `computePartialNeighbors`. -/
def handleConnection (sqrt : α → α) (sortSlice : SortSlice (NeighborResult α)) :
    String → TaskRequest α → Except ε (List (NeighborResult α)) :=
  fun _ req => Except.ok (computePartialNeighbors sqrt sortSlice req)

/-- The neighbour search of `distributedRecommendation`: its code up to `topK`,
without the network events. -/
def distributedNeighbors (sortNeighbors : SortSlice (NeighborResult α))
    (call : String → TaskRequest α → Except ε (List (NeighborResult α)))
    (userRatings : GoMap (GoMap α)) (nodes : List String) (k : Nat) (targetUser : String) :
    Option (Except ε (List (NeighborResult α))) :=
  match splitUsersIntoChunks userRatings nodes.length with
  | none => none
  | some chunks =>
    match (gatherNeighbors call k targetUser (nodes.zip chunks) [] []).1 with
    | Except.error err => some (Except.error err)
    | Except.ok allNeighbors => some (Except.ok (TopK sortNeighbors allNeighbors k))

end Coordinator

/-! ## The in-process search (`knn.go`) -/

section Local

variable {α : Type} [LinearOrderedField α]

/-- The work of one job of `computeNeighborsParallel`: the candidate `v` is sent to
the results when its similarity is positive. -/
def neighborJob (sqrt : α → α) (target : String) (userRatings : GoMap (GoMap α))
    (results : List (NeighborResult α)) (v : String) : List (NeighborResult α) :=
  let sim := CosineSimilarity sqrt (userRatings.getD target GoMap.empty)
    (userRatings.getD v GoMap.empty)
  if sim > 0 then results ++ [⟨v, sim⟩] else results

/-- `computeNeighborsParallel(target, userRatings, workers, k)`; the struct
`Neighbor` has the fields of `NeighborResult`.  The jobs are the users other than
the target; without a worker goroutine no job is done.  `arrival` is the order
in which the collector receives the results of the worker goroutines. -/
def computeNeighborsParallel (sqrt : α → α) (sortSlice : SortSlice (NeighborResult α))
    (arrival : List (NeighborResult α) → List (NeighborResult α))
    (target : String) (userRatings : GoMap (GoMap α)) (workers k : Nat) :
    List (NeighborResult α) :=
  let others := userRatings.entries.foldl
    (fun (others : List String) (e : String × GoMap α) =>
      if e.1 ≠ target then others ++ [e.1] else others) []
  let found := if workers = 0 then [] else others.foldl (neighborJob sqrt target userRatings) []
  let all := sortSlice (fun x y => decide (x.Similarity > y.Similarity)) (arrival found)
  if all.length > k then all.take k else all

end Local

/-! ## The rating analysis (`analisis.go`) -/

set_option linter.dupNamespace false in
/-- The struct `Rating` of `analisis.go`. -/
structure Rating (α : Type) where
  UserID : String
  MovieID : String
  Rating : α

/-- The constant `workerCount` of `analisis.go`. -/
def workerCount : Nat := 8

section Analysis

variable {α : Type} [DecidableEq α]

/-- The update `counts[k] += v` of a `map[float64]int`, the map being the list of
its entries. -/
def addCount : List (α × Nat) → α → Nat → List (α × Nat)
  | [], k, v => [(k, v)]
  | (k0, c) :: rest, k, v => if k0 = k then (k0, c + v) :: rest else (k0, c) :: addCount rest k v

/-- The chunks the loop of `analyzeRatings` hands to its goroutines, from the
index `i` on, `fuel` being the number of iterations left. -/
def chunkLoop (ratings : List (Rating α)) (chunkSize : Nat) : Nat → Nat → List (List (Rating α))
  | 0, _ => []
  | fuel + 1, i =>
    let start := i * chunkSize
    let stop := if start + chunkSize > ratings.length then ratings.length else start + chunkSize
    if start ≥ ratings.length then []
    else (ratings.drop start).take (stop - start) :: chunkLoop ratings chunkSize fuel (i + 1)

/-- The chunks of `analyzeRatings`: `ratings[start:end]` for each goroutine. -/
def ratingChunks (ratings : List (Rating α)) : List (List (Rating α)) :=
  let chunkSize := if ratings.length / workerCount = 0 then ratings.length
    else ratings.length / workerCount
  chunkLoop ratings chunkSize workerCount 0

/-- The counts a goroutine of `analyzeRatings` builds for its chunk. -/
def localCounts (chunk : List (Rating α)) : List (α × Nat) :=
  chunk.foldl (fun counts r => addCount counts r.Rating 1) []

/-- `analyzeRatings(ratings)`: the distribution `counts` handed to
`saveDistribution`, merged from the local counts of the goroutines (here in the
order of the chunks), and the total handed to `saveSummary`.  The sets of users
and movies are left out. -/
def analyzeRatings (ratings : List (Rating α)) : List (α × Nat) × Nat :=
  ((ratingChunks ratings).foldl
      (fun counts chunk =>
        (localCounts chunk).foldl (fun counts kv => addCount counts kv.1 kv.2) counts) [],
    ratings.length)

end Analysis

/-! ## Concrete inputs used by the examples -/

/-- Two neighbours of equal similarity, the larger user id first. -/
def tiedNeighbors : List (NeighborResult ℚ) := [⟨"b", 1 / 2⟩, ⟨"a", 1 / 2⟩]

/-- The candidates of a first chunk. -/
def chunkOne : List (NeighborResult ℚ) := [⟨"a", 1 / 2⟩, ⟨"b", 1 / 2⟩, ⟨"c", 1 / 10⟩]

/-- The candidates of a second chunk. -/
def chunkTwo : List (NeighborResult ℚ) :=
  [⟨"d", 1 / 10⟩, ⟨"e", 1 / 10⟩, ⟨"f", 1 / 10⟩, ⟨"g", 9 / 10⟩]

/-- Two predictions of equal rating, the larger movie id first. -/
def tiedRecs : List (Recommended ℚ) := [⟨"m2", 4⟩, ⟨"m1", 4⟩]

/-- The rating matrix of the end-to-end example: the target `U` and the
neighbours `A` and `B`. -/
def exampleMatrix : GoMap (GoMap ℚ) :=
  ⟨[("U", ⟨[("m1", 5), ("m2", 3)], by decide⟩),
    ("A", ⟨[("m2", 3), ("m3", 4)], by decide⟩),
    ("B", ⟨[("m3", 2)], by decide⟩)], by decide⟩

/-- The neighbour list of the end-to-end example. -/
def exampleNeighbors : List (NeighborResult ℚ) := [⟨"A", 9 / 10⟩, ⟨"B", 1 / 2⟩]

/-- The neighbour `A` alone, with a negative similarity. -/
def negativeNeighbor : List (NeighborResult ℚ) := [⟨"A", -1 / 2⟩]

/-- Rounding to 4 decimal places, as the `%.4f` of the CSV output shows a
predicted rating. -/
def roundTo4 (x : ℚ) : ℚ := (round (x * 10000) : ℤ) / 10000

/-- Three users with the same single rating; `U` is the target. -/
def unitMatrix : GoMap (GoMap ℝ) :=
  ⟨[("U", ⟨[("m1", 1)], by decide⟩),
    ("A", ⟨[("m1", 1)], by decide⟩),
    ("B", ⟨[("m1", 1)], by decide⟩)], by decide⟩

/-- The example matrix enumerated in another order. -/
def exampleMatrixSwapped : GoMap (GoMap ℚ) :=
  ⟨[("A", ⟨[("m2", 3), ("m3", 4)], by decide⟩),
    ("U", ⟨[("m1", 5), ("m2", 3)], by decide⟩),
    ("B", ⟨[("m3", 2)], by decide⟩)], by decide⟩

/-- Nine ratings of the same value. -/
def nineRatings : List (Rating ℚ) :=
  [⟨"u1", "m1", 4⟩, ⟨"u2", "m1", 4⟩, ⟨"u3", "m1", 4⟩, ⟨"u4", "m1", 4⟩, ⟨"u5", "m1", 4⟩,
    ⟨"u6", "m1", 4⟩, ⟨"u7", "m1", 4⟩, ⟨"u8", "m1", 4⟩, ⟨"u9", "m1", 4⟩]

/-- A network on which the first endpoint answers nothing and every other call
fails with its address as the error. -/
def firstOnlyCall : String → TaskRequest ℚ → Except String (List (NeighborResult ℚ)) :=
  fun addr _ => if addr = "pcd-pc4_nodo1:9000" then Except.ok [] else Except.error addr

/-- A network on which every call fails with the address as the error. -/
def failingCall : String → TaskRequest ℚ → Except String (List (NeighborResult ℚ)) :=
  fun addr _ => Except.error addr

/-- A network on which every call succeeds with no neighbour. -/
def silentCall : String → TaskRequest ℚ → Except String (List (NeighborResult ℚ)) :=
  fun _ _ => Except.ok []

/-! ## Proof devices for the merge of local top-K lists -/

section MergeDefs

variable {α : Type} [LinearOrder α]

/-- Merge of two descending lists (a proof device, not part of the program). -/
def mergeDesc : List α → List α → List α
  | [], ys => ys
  | x :: xs, [] => x :: xs
  | x :: xs, y :: ys =>
    if y ≤ x then x :: mergeDesc xs (y :: ys) else y :: mergeDesc (x :: xs) ys
termination_by xs ys => xs.length + ys.length

/-- The descending sort of a list of values (a proof device). -/
def sortDesc (v : List α) : List α := v.insertionSort (fun a b => b ≤ a)

end MergeDefs

section PredictDefs

variable {α : Type} [LinearOrderedField α]

/-- One of the two accumulators of the inner loop of `PredictRatings`, `f` giving
the value added for a rating (a proof device). -/
def accumulate (T : GoMap α) (f : α → α) (l : List (String × α)) (M : GoMap α) : GoMap α :=
  l.foldl (fun (M : GoMap α) (e : String × α) =>
    if T.contains e.1 then M else M.insert e.1 (M.getD e.1 0 + f e.2)) M

/-- One of the two accumulators of the outer loop of `PredictRatings` (a proof
device). -/
def accumulateAll (T : GoMap α) (ratings : GoMap (GoMap α)) (f : NeighborResult α → α → α)
    (neighbors : List (NeighborResult α)) (M : GoMap α) : GoMap α :=
  neighbors.foldl
    (fun M nb => accumulate T (f nb) (ratings.getD nb.UserID GoMap.empty).entries M) M

end PredictDefs

/-- The network events of calls made one after the other to the endpoints
`addrs`: each call is issued after the previous one has returned. -/
def sequentialTrace : List String → List NetEvent
  | [] => []
  | addr :: rest => NetEvent.issued addr :: NetEvent.returned addr :: sequentialTrace rest

/-- Concurrent dispatch as the specification words it: every call is issued before
any call has returned. -/
def issuedBeforeReturned (events : List NetEvent) : Prop :=
  ∀ (i j : Nat) (a b : String),
    events[i]? = some (NetEvent.returned a) → events[j]? = some (NetEvent.issued b) → j < i

section WorkerDefs

variable {α : Type} [LinearOrderedField α]

/-- What the loop body of `computePartialNeighbors` appends for the entry `e` of
the chunk, if anything (a proof device). -/
def candidateOf (sqrt : α → α) (target : String) (targetRatings : GoMap α)
    (e : String × GoMap α) : Option (NeighborResult α) :=
  if e.1 = target then none
  else if 0 < CosineSimilarity sqrt targetRatings e.2 then
    some ⟨e.1, CosineSimilarity sqrt targetRatings e.2⟩
  else none

end WorkerDefs

/-! # Lemmas -/

namespace GoMap

variable {V : Type}

theorem get?_of_mem (m : GoMap V) {e : String × V} (he : e ∈ m.entries) :
    m.get? e.1 = some e.2 := by
  obtain ⟨l, hl⟩ := m
  simp only [get?] at he ⊢
  induction l with
  | nil => simp at he
  | cons x l ih =>
    rw [List.map_cons, List.nodup_cons] at hl
    rcases List.mem_cons.1 he with rfl | h
    · simp
    · have hne : x.1 ≠ e.1 := by
        intro hx
        exact hl.1 (hx ▸ List.mem_map_of_mem Prod.fst h)
      rw [List.find?_cons_of_neg _ (by simpa using hne)]
      exact ih hl.2 h

theorem get?_eq_some_iff (m : GoMap V) (k : String) (v : V) :
    m.get? k = some v ↔ (k, v) ∈ m.entries := by
  constructor
  · intro h
    simp only [get?, Option.map_eq_some'] at h
    obtain ⟨e, he, rfl⟩ := h
    have h1 := List.find?_some he
    have h2 := List.mem_of_find?_eq_some he
    simp only [beq_iff_eq] at h1
    subst h1
    exact h2
  · intro h
    exact m.get?_of_mem h

theorem get?_eq_none_iff (m : GoMap V) (k : String) :
    m.get? k = none ↔ k ∉ m.keys := by
  simp only [get?, keys, Option.map_eq_none', List.find?_eq_none, List.mem_map, not_exists,
    not_and, beq_iff_eq]

theorem mem_keys_iff (m : GoMap V) (k : String) :
    k ∈ m.keys ↔ ∃ v, m.get? k = some v := by
  constructor
  · intro h
    rcases List.mem_map.1 h with ⟨e, he, rfl⟩
    exact ⟨e.2, m.get?_of_mem he⟩
  · rintro ⟨v, hv⟩
    exact List.mem_map.2 ⟨(k, v), (m.get?_eq_some_iff k v).1 hv, rfl⟩

theorem getD_of_mem (m : GoMap V) {e : String × V} (he : e ∈ m.entries) (d : V) :
    m.getD e.1 d = e.2 := by
  simp [getD, m.get?_of_mem he]

/-- A sum over the entries of a map is a sum over its key set. -/
theorem sum_entries {M : Type} [AddCommMonoid M] (m : GoMap V) (d : V) (g : String → V → M) :
    (m.entries.map (fun e => g e.1 e.2)).sum = ∑ k in m.keys.toFinset, g k (m.getD k d) := by
  rw [keys, List.sum_toFinset _ m.nodup, List.map_map]
  congr 1
  apply List.map_congr_left
  intro e he
  simp [m.getD_of_mem he d]

end GoMap

section CosineLemmas

variable {α : Type} [LinearOrderedField α]

theorem cosineLoopA_foldl (b : GoMap α) (l : List (String × α)) (x y : α) :
    l.foldl
      (fun (acc : α × α) (e : String × α) =>
        ((match b.get? e.1 with
          | some rb => acc.1 + e.2 * rb
          | none => acc.1),
         acc.2 + e.2 * e.2))
      (x, y)
    = (x + (l.map (fun e => e.2 * b.getD e.1 0)).sum
         - (l.map (fun e => if b.contains e.1 then 0 else e.2 * b.getD e.1 0)).sum,
       y + (l.map (fun e => e.2 * e.2)).sum) := by
  induction l generalizing x y with
  | nil => simp
  | cons e l ih =>
    rw [List.foldl_cons, ih]
    cases hb : b.get? e.1 with
    | none => simp [GoMap.getD, GoMap.contains, hb, add_assoc]
    | some rb => simp [GoMap.getD, GoMap.contains, hb, add_assoc]

theorem cosineLoopA_snd (a b : GoMap α) : (cosineLoopA a b).2 = normSpec a := by
  rw [cosineLoopA, cosineLoopA_foldl, normSpec]
  rw [← a.sum_entries 0 (fun _ v => v ^ 2)]
  simp only [pow_two, zero_add]

theorem cosineLoopA_fst (a b : GoMap α) : (cosineLoopA a b).1 = dotSpec a b := by
  rw [cosineLoopA, cosineLoopA_foldl, dotSpec]
  simp only [zero_add]
  have h0 : (a.entries.map
      (fun e => if b.contains e.1 then 0 else e.2 * b.getD e.1 0)).sum = 0 := by
    apply List.sum_eq_zero
    intro x hx
    rcases List.mem_map.1 hx with ⟨e, -, rfl⟩
    cases hb : b.get? e.1 <;> simp [GoMap.contains, GoMap.getD, hb]
  rw [h0, sub_zero]
  rw [a.sum_entries 0 (fun k v => v * b.getD k 0)]
  rw [← Finset.sum_subset
    (Finset.inter_subset_left : a.keys.toFinset ∩ b.keys.toFinset ⊆ a.keys.toFinset)]
  intro k _ hk
  have hkb : k ∉ b.keys := by
    intro hb
    exact hk (Finset.mem_inter.2 ⟨by assumption, List.mem_toFinset.2 hb⟩)
  simp [GoMap.getD, (b.get?_eq_none_iff k).2 hkb]

theorem cosineLoopB_eq (b : GoMap α) : cosineLoopB b = normSpec b := by
  have h : ∀ (l : List (String × α)) (x : α),
      l.foldl (fun (acc : α) (e : String × α) => acc + e.2 * e.2) x
        = x + (l.map (fun e => e.2 * e.2)).sum := by
    intro l
    induction l with
    | nil => simp
    | cons e l ih => intro x; rw [List.foldl_cons, ih]; simp [add_assoc]
  rw [cosineLoopB, h, normSpec, zero_add, ← b.sum_entries 0 (fun _ v => v ^ 2)]
  simp only [pow_two]

theorem cosine_eq_spec (sqrt : α → α) (a b : GoMap α) :
    CosineSimilarity sqrt a b = cosineSpec sqrt a b := by
  simp only [CosineSimilarity, cosineSpec, cosineLoopA_fst, cosineLoopA_snd, cosineLoopB_eq]

theorem normSpec_nonneg (a : GoMap α) : 0 ≤ normSpec a :=
  Finset.sum_nonneg fun _ _ => sq_nonneg _

theorem dotSpec_self (a : GoMap α) : dotSpec a a = normSpec a := by
  simp only [dotSpec, normSpec, Finset.inter_self, pow_two]

/-- Cauchy-Schwarz for the intersection dot product and the full self-norms. -/
theorem dotSpec_sq_le (a b : GoMap α) : dotSpec a b ^ 2 ≤ normSpec a * normSpec b := by
  have h1 := Finset.sum_mul_sq_le_sq_mul_sq (a.keys.toFinset ∩ b.keys.toFinset)
    (fun m => a.getD m 0) (fun m => b.getD m 0)
  refine h1.trans (mul_le_mul ?_ ?_ (Finset.sum_nonneg fun _ _ => sq_nonneg _)
    (normSpec_nonneg a))
  · exact Finset.sum_le_sum_of_subset_of_nonneg Finset.inter_subset_left
      (fun _ _ _ => sq_nonneg _)
  · exact Finset.sum_le_sum_of_subset_of_nonneg Finset.inter_subset_right
      (fun _ _ _ => sq_nonneg _)

end CosineLemmas

/-- In exact real arithmetic the similarity lies in `[-1, 1]`.  This is a fact
of the idealised model only: the rounded `float64` quotient can leave the
interval in the last place. -/
theorem cosine_abs_le_one (a b : GoMap ℝ) : |CosineSimilarity Real.sqrt a b| ≤ 1 := by
  rw [cosine_eq_spec, cosineSpec]
  split_ifs with h
  · simp
  · push_neg at h
    have ha : 0 < normSpec a := lt_of_le_of_ne (normSpec_nonneg a) (Ne.symm h.1)
    have hb : 0 < normSpec b := lt_of_le_of_ne (normSpec_nonneg b) (Ne.symm h.2)
    have hd : 0 < Real.sqrt (normSpec a) * Real.sqrt (normSpec b) :=
      mul_pos (Real.sqrt_pos.2 ha) (Real.sqrt_pos.2 hb)
    rw [abs_div, abs_of_pos hd, div_le_one hd, ← Real.sqrt_mul ha.le]
    exact Real.abs_le_sqrt (dotSpec_sq_le a b)

/-- In exact real arithmetic the similarity of a vector of norm different from
`0` to itself is `1`.  This is a fact of the idealised model only. -/
theorem cosine_self_of_ne_zero (a : GoMap ℝ) (h : normSpec a ≠ 0) :
    CosineSimilarity Real.sqrt a a = 1 := by
  rw [cosine_eq_spec, cosineSpec, if_neg (by simpa using h), dotSpec_self,
    Real.mul_self_sqrt (normSpec_nonneg a)]
  exact div_self h

section SortLemmas

variable {β : Type}

theorem insertLess_perm (less : β → β → Bool) (x : β) (rev : List β) :
    (insertLess less x rev).Perm (x :: rev) := by
  induction rev with
  | nil => exact List.Perm.refl _
  | cons y rev ih =>
    rw [insertLess]
    split_ifs
    · exact (List.Perm.cons y ih).trans (List.Perm.swap x y rev)
    · exact List.Perm.refl _

theorem insertFold_perm (less : β → β → Bool) (l rev : List β) :
    (l.foldl (fun rev x => insertLess less x rev) rev).Perm (l ++ rev) := by
  induction l generalizing rev with
  | nil => exact List.Perm.refl _
  | cons x l ih =>
    rw [List.foldl_cons]
    refine (ih _).trans ?_
    refine (List.Perm.append_left l (insertLess_perm less x rev)).trans ?_
    exact List.perm_middle

theorem insertLess_pairwise (less : β → β → Bool)
    (hasymm : ∀ a b, less a b = true → less b a = false)
    (htrans : ∀ a b c, less b a = false → less c b = false → less c a = false)
    (x : β) (rev : List β) (h : rev.Pairwise (fun p q => less p q = false)) :
    (insertLess less x rev).Pairwise (fun p q => less p q = false) := by
  induction rev with
  | nil => simp [insertLess]
  | cons y rev ih =>
    rw [List.pairwise_cons] at h
    rw [insertLess]
    split_ifs with hxy
    · rw [List.pairwise_cons]
      refine ⟨?_, ih h.2⟩
      intro q hq
      rcases List.mem_cons.1 ((insertLess_perm less x rev).subset hq) with rfl | hq
      · exact hasymm _ _ hxy
      · exact h.1 q hq
    · have hxy : less x y = false := by simpa using hxy
      rw [List.pairwise_cons]
      refine ⟨?_, List.pairwise_cons.2 h⟩
      intro q hq
      rcases List.mem_cons.1 hq with rfl | hq
      · exact hxy
      · exact htrans q y x (h.1 q hq) hxy

theorem insertFold_pairwise (less : β → β → Bool)
    (hasymm : ∀ a b, less a b = true → less b a = false)
    (htrans : ∀ a b c, less b a = false → less c b = false → less c a = false)
    (l rev : List β) (h : rev.Pairwise (fun p q => less p q = false)) :
    (l.foldl (fun rev x => insertLess less x rev) rev).Pairwise
      (fun p q => less p q = false) := by
  induction l generalizing rev with
  | nil => exact h
  | cons x l ih =>
    rw [List.foldl_cons]
    exact ih _ (insertLess_pairwise less hasymm htrans x rev h)

/-- The insertion sort of the Go runtime meets the contract of `sort.Slice`. -/
theorem insertionSortLess_spec : SortSliceSpec (insertionSortLess : SortSlice β) := by
  intro less l
  constructor
  · refine (List.reverse_perm _).trans ?_
    simpa using insertFold_perm less l []
  · intro hasymm htrans
    rw [insertionSortLess, List.pairwise_reverse]
    exact insertFold_pairwise less hasymm htrans l [] List.Pairwise.nil

variable {α : Type} [LinearOrder α]

theorem spec_perm {s : SortSlice β} (hs : SortSliceSpec s) (key : β → α) (l : List β) :
    (s (fun x y => decide (key x > key y)) l).Perm l :=
  (hs _ l).1

theorem spec_sorted {s : SortSlice β} (hs : SortSliceSpec s) (key : β → α) (l : List β) :
    (s (fun x y => decide (key x > key y)) l).Pairwise (fun x y => key y ≤ key x) := by
  have h := (hs (fun x y => decide (key x > key y)) l).2
    (by
      intro a b hab
      simp only [gt_iff_lt, decide_eq_true_eq, decide_eq_false_iff_not, not_lt] at hab ⊢
      exact hab.le)
    (by
      intro a b c h1 h2
      simp only [gt_iff_lt, decide_eq_false_iff_not, not_lt] at h1 h2 ⊢
      exact h2.trans h1)
  refine h.imp ?_
  intro a b hab
  simpa using hab

end SortLemmas

section MergeLemmas

variable {α : Type} [LinearOrder α]

theorem mergeDesc_nil_right (xs : List α) : mergeDesc xs [] = xs := by
  cases xs <;> simp [mergeDesc]

theorem mergeDesc_perm (xs ys : List α) : (mergeDesc xs ys).Perm (xs ++ ys) := by
  induction xs generalizing ys with
  | nil => simp [mergeDesc]
  | cons x xs ihx =>
    induction ys with
    | nil => simp [mergeDesc]
    | cons y ys ihy =>
      rw [mergeDesc]
      split_ifs
      · exact List.Perm.cons x (ihx (y :: ys))
      · refine (List.Perm.cons y ihy).trans ?_
        exact (List.perm_middle : (x :: xs ++ y :: ys).Perm (y :: (x :: xs ++ ys))).symm

theorem mergeDesc_sorted (xs ys : List α)
    (hx : xs.Pairwise (fun a b => b ≤ a)) (hy : ys.Pairwise (fun a b => b ≤ a)) :
    (mergeDesc xs ys).Pairwise (fun a b => b ≤ a) := by
  induction xs generalizing ys with
  | nil => simpa [mergeDesc] using hy
  | cons x xs ihx =>
    induction ys with
    | nil => simpa [mergeDesc] using hx
    | cons y ys ihy =>
      rw [mergeDesc]
      rw [List.pairwise_cons] at hx hy
      split_ifs with hxy
      · rw [List.pairwise_cons]
        refine ⟨?_, ihx (y :: ys) hx.2 (List.pairwise_cons.2 hy)⟩
        intro b hb
        rcases List.mem_append.1 ((mergeDesc_perm xs (y :: ys)).subset hb) with h | h
        · exact hx.1 b h
        · rcases List.mem_cons.1 h with rfl | h
          · exact hxy
          · exact (hy.1 b h).trans hxy
      · rw [List.pairwise_cons]
        refine ⟨?_, ihy hy.2⟩
        have hxy : x ≤ y := (not_le.1 hxy).le
        intro b hb
        rcases List.mem_append.1 ((mergeDesc_perm (x :: xs) ys).subset hb) with h | h
        · rcases List.mem_cons.1 h with rfl | h
          · exact hxy
          · exact (hx.1 b h).trans hxy
        · exact hy.1 b h

theorem take_mergeDesc (K : Nat) : ∀ (k1 k2 : Nat) (xs ys : List α), K ≤ k1 → K ≤ k2 →
    (mergeDesc (xs.take k1) (ys.take k2)).take K = (mergeDesc xs ys).take K := by
  induction K with
  | zero => intros; simp
  | succ K ih =>
    intro k1 k2 xs
    induction xs generalizing k1 k2 with
    | nil =>
      intro ys _ h2
      simp [mergeDesc, List.take_take, h2]
    | cons x xs ihx =>
      intro ys
      induction ys generalizing k1 k2 with
      | nil =>
        intro h1 _
        simp only [List.take_nil, mergeDesc_nil_right, List.take_take]
        rw [Nat.min_eq_left h1]
      | cons y ys ihy =>
        intro h1 h2
        obtain ⟨k1, rfl⟩ := Nat.exists_eq_succ_of_ne_zero (by omega : k1 ≠ 0)
        obtain ⟨k2, rfl⟩ := Nat.exists_eq_succ_of_ne_zero (by omega : k2 ≠ 0)
        simp only [List.take_succ_cons]
        rw [mergeDesc, mergeDesc]
        split_ifs with hxy
        · rw [List.take_succ_cons, List.take_succ_cons]
          congr 1
          have := ih k1 (k2 + 1) xs (y :: ys) (by omega) (by omega)
          simpa only [List.take_succ_cons] using this
        · rw [List.take_succ_cons, List.take_succ_cons]
          congr 1
          have := ih (k1 + 1) k2 (x :: xs) ys (by omega) (by omega)
          simpa only [List.take_succ_cons] using this

theorem sortDesc_perm (v : List α) : (sortDesc v).Perm v :=
  List.perm_insertionSort _ v

theorem sortDesc_sorted (v : List α) : (sortDesc v).Pairwise (fun a b => b ≤ a) :=
  List.sorted_insertionSort (fun a b => b ≤ a) v

theorem eq_sortDesc_of_perm_of_sorted {u v : List α} (hp : u.Perm v)
    (hs : u.Pairwise (fun a b => b ≤ a)) : u = sortDesc v :=
  List.eq_of_perm_of_sorted (r := fun a b => b ≤ a)
    (hp.trans (sortDesc_perm v).symm) hs (sortDesc_sorted v)

/-- Top-`K` of the values is computed exactly from the local top-`k1` and
top-`k2` of two parts when `K ≤ k1` and `K ≤ k2`. -/
theorem take_sortDesc_append (K k1 k2 : Nat) (A B : List α) (h1 : K ≤ k1) (h2 : K ≤ k2) :
    (sortDesc ((sortDesc A).take k1 ++ (sortDesc B).take k2)).take K
      = (sortDesc (A ++ B)).take K := by
  have hL : mergeDesc ((sortDesc A).take k1) ((sortDesc B).take k2)
      = sortDesc ((sortDesc A).take k1 ++ (sortDesc B).take k2) :=
    eq_sortDesc_of_perm_of_sorted (mergeDesc_perm _ _)
      (mergeDesc_sorted _ _ ((sortDesc_sorted A).sublist (List.take_sublist _ _))
        ((sortDesc_sorted B).sublist (List.take_sublist _ _)))
  have hR : mergeDesc (sortDesc A) (sortDesc B) = sortDesc (A ++ B) :=
    eq_sortDesc_of_perm_of_sorted
      ((mergeDesc_perm _ _).trans ((sortDesc_perm A).append (sortDesc_perm B)))
      (mergeDesc_sorted _ _ (sortDesc_sorted A) (sortDesc_sorted B))
  rw [← hL, ← hR]
  exact take_mergeDesc K k1 k2 _ _ h1 h2

end MergeLemmas

section TopLemmas

variable {β : Type}

theorem gapPassLess_perm (less : β → β → Bool) (n : Nat) :
    ∀ l : List β, l.length = n → (gapPassLess less l).Perm l := by
  induction n with
  | zero =>
    intro l hl
    rw [List.length_eq_zero.1 hl]
    simp [gapPassLess]
  | succ n ih =>
    intro l hl
    match l, hl with
    | x0 :: x1 :: x2 :: x3 :: x4 :: x5 :: x6 :: rest, hl =>
      rw [gapPassLess]
      split_ifs
      · refine (List.Perm.cons x6 (ih _ (by simpa using hl))).trans ?_
        have h : (x6 :: x1 :: x2 :: x3 :: x4 :: x5 :: x0 :: rest).Perm
            ([x6] ++ ([x1, x2, x3, x4, x5] ++ ([x0] ++ rest))) := List.Perm.refl _
        refine h.trans ?_
        have h2 : (x0 :: x1 :: x2 :: x3 :: x4 :: x5 :: x6 :: rest).Perm
            ([x0] ++ ([x1, x2, x3, x4, x5] ++ ([x6] ++ rest))) := List.Perm.refl _
        refine List.Perm.trans ?_ h2.symm
        classical
        rw [List.perm_iff_count]
        intro a
        simp only [List.count_append]
        omega
      · exact List.Perm.cons x0 (ih _ (by simpa using hl))
    | [], _ => simp [gapPassLess]
    | [_], _ => simp [gapPassLess]
    | [_, _], _ => simp [gapPassLess]
    | [_, _, _], _ => simp [gapPassLess]
    | [_, _, _, _], _ => simp [gapPassLess]
    | [_, _, _, _, _], _ => simp [gapPassLess]
    | [_, _, _, _, _, _], _ => simp [gapPassLess]

theorem gapInsertionSortLess_spec : SortSliceSpec (gapInsertionSortLess : SortSlice β) := by
  intro less l
  constructor
  · exact ((insertionSortLess_spec less _).1).trans (gapPassLess_perm less _ l rfl)
  · exact (insertionSortLess_spec less _).2

variable {α : Type} [LinearOrder α]

theorem take_sorted_length {s : SortSlice β} (hs : SortSliceSpec s) (key : β → α)
    (l : List β) (k : Nat) :
    ((s (fun x y => decide (key x > key y)) l).take k).length = min k l.length := by
  rw [List.length_take, (spec_perm hs key l).length_eq]

theorem map_sorted_eq {s : SortSlice β} (hs : SortSliceSpec s) (key : β → α) (l : List β) :
    (s (fun x y => decide (key x > key y)) l).map key = sortDesc (l.map key) :=
  eq_sortDesc_of_perm_of_sorted ((spec_perm hs key l).map key)
    (List.pairwise_map.2 (spec_sorted hs key l))

theorem map_take_sorted_eq {s : SortSlice β} (hs : SortSliceSpec s) (key : β → α)
    (l : List β) (k : Nat) :
    ((s (fun x y => decide (key x > key y)) l).take k).map key
      = (sortDesc (l.map key)).take k := by
  rw [List.map_take, map_sorted_eq hs]

/-- The keys of the merged top-`K` are the keys of the direct top-`K`. -/
theorem merged_keys_eq {s : SortSlice β} (hs : SortSliceSpec s) (key : β → α)
    (l1 l2 : List β) (K k1 k2 : Nat) (h1 : K ≤ k1) (h2 : K ≤ k2) :
    ((s (fun x y => decide (key x > key y))
        ((s (fun x y => decide (key x > key y)) l1).take k1 ++
         (s (fun x y => decide (key x > key y)) l2).take k2)).take K).map key
      = ((s (fun x y => decide (key x > key y)) (l1 ++ l2)).take K).map key := by
  rw [map_take_sorted_eq hs, map_take_sorted_eq hs, List.map_append, List.map_append,
    map_take_sorted_eq hs, map_take_sorted_eq hs]
  exact take_sortDesc_append K k1 k2 _ _ h1 h2

theorem eq_of_map_eq_of_injOn {γ : Type} (key : β → γ) (pool : List β)
    (hinj : ∀ x ∈ pool, ∀ y ∈ pool, key x = key y → x = y) :
    ∀ (u v : List β), (∀ x ∈ u, x ∈ pool) → (∀ x ∈ v, x ∈ pool) →
      u.map key = v.map key → u = v := by
  intro u
  induction u with
  | nil => intro v _ _ h; simpa using h.symm
  | cons a u ih =>
    intro v hu hv h
    cases v with
    | nil => simp at h
    | cons b v =>
      simp only [List.map_cons, List.cons.injEq] at h
      have hab := hinj a (hu a (List.mem_cons_self _ _)) b (hv b (List.mem_cons_self _ _)) h.1
      rw [hab, ih v (fun x hx => hu x (List.mem_cons_of_mem _ hx))
        (fun x hx => hv x (List.mem_cons_of_mem _ hx)) h.2]

theorem merged_eq_of_nodup {s : SortSlice β} (hs : SortSliceSpec s) (key : β → α)
    (l1 l2 : List β) (K k1 k2 : Nat) (h1 : K ≤ k1) (h2 : K ≤ k2)
    (hnd : ((l1 ++ l2).map key).Nodup) :
    (s (fun x y => decide (key x > key y))
        ((s (fun x y => decide (key x > key y)) l1).take k1 ++
         (s (fun x y => decide (key x > key y)) l2).take k2)).take K
      = (s (fun x y => decide (key x > key y)) (l1 ++ l2)).take K := by
  refine eq_of_map_eq_of_injOn key (l1 ++ l2) (List.inj_on_of_nodup_map hnd) _ _ ?_ ?_
    (merged_keys_eq hs key l1 l2 K k1 k2 h1 h2)
  · intro x hx
    have hx := (spec_perm hs key _).subset (List.mem_of_mem_take hx)
    rcases List.mem_append.1 hx with h | h
    · exact List.mem_append_left _ ((spec_perm hs key l1).subset (List.mem_of_mem_take h))
    · exact List.mem_append_right _ ((spec_perm hs key l2).subset (List.mem_of_mem_take h))
  · intro x hx
    exact (spec_perm hs key _).subset (List.mem_of_mem_take hx)

theorem take_drop_sorted {s : SortSlice β} (hs : SortSliceSpec s) (key : β → α)
    (l : List β) (k : Nat) :
    ((s (fun x y => decide (key x > key y)) l).take k ++
        (s (fun x y => decide (key x > key y)) l).drop k).Perm l ∧
    ((s (fun x y => decide (key x > key y)) l).take k).Pairwise (fun x y => key y ≤ key x) ∧
    ∀ x ∈ (s (fun x y => decide (key x > key y)) l).take k,
      ∀ y ∈ (s (fun x y => decide (key x > key y)) l).drop k, key y ≤ key x := by
  have hsorted := spec_sorted hs key l
  rw [← List.take_append_drop k (s (fun x y => decide (key x > key y)) l),
    List.pairwise_append] at hsorted
  refine ⟨?_, hsorted.1, hsorted.2.2⟩
  rw [List.take_append_drop]
  exact spec_perm hs key l

theorem gapPassLess_short (less : β → β → Bool) (l : List β) (h : l.length < 7) :
    gapPassLess less l = l := by
  match l, h with
  | [], _ => simp [gapPassLess]
  | [_], _ => simp [gapPassLess]
  | [_, _], _ => simp [gapPassLess]
  | [_, _, _], _ => simp [gapPassLess]
  | [_, _, _, _], _ => simp [gapPassLess]
  | [_, _, _, _, _], _ => simp [gapPassLess]
  | [_, _, _, _, _, _], _ => simp [gapPassLess]
  | _ :: _ :: _ :: _ :: _ :: _ :: _ :: _, h => simp at h; omega

end TopLemmas

section KnnLemmas

variable {α : Type} [LinearOrderedField α]

theorem TopK_eq_take (s : SortSlice (NeighborResult α)) (list : List (NeighborResult α))
    (k : Nat) :
    TopK s list k = (s (fun x y => decide (x.Similarity > y.Similarity)) list).take k := by
  unfold TopK
  simp only
  split_ifs with h
  · rfl
  · exact (List.take_of_length_le (by omega)).symm

theorem TopN_eq_take (s : SortSlice (Recommended α)) (recs : List (Recommended α))
    (n : Nat) :
    TopNRecommendations s recs n
      = (s (fun x y => decide (x.Predicted > y.Predicted)) recs).take n := by
  unfold TopNRecommendations
  simp only
  split_ifs with h
  · rfl
  · exact (List.take_of_length_le (by omega)).symm

end KnnLemmas

namespace GoMap

variable {V : Type}

theorem get?_empty (k : String) : (GoMap.empty : GoMap V).get? k = none := rfl

theorem get?_insert (m : GoMap V) (k : String) (v : V) (k2 : String) :
    (m.insert k v).get? k2 = if k2 = k then some v else m.get? k2 := by
  simp only [get?, insert]
  split_ifs with h
  · subst h
    simp
  · have hne : ¬ k = k2 := fun h2 => h h2.symm
    rw [List.find?_cons_of_neg _ (by simpa using hne), List.find?_filter]
    congr 2
    funext e
    by_cases he : e.1 = k2
    · simp [he, h]
    · simp [he]

theorem get?_cons (x : String × V) (l : List (String × V))
    (h : ((x :: l).map Prod.fst).Nodup) (k : String) :
    (⟨x :: l, h⟩ : GoMap V).get? k
      = if x.1 = k then some x.2 else (⟨l, (List.nodup_cons.1 h).2⟩ : GoMap V).get? k := by
  simp only [get?]
  split_ifs with hx
  · simp [hx]
  · rw [List.find?_cons_of_neg _ (by simpa using hx)]

theorem get?_tail_of_head (x : String × V) (l : List (String × V))
    (h : ((x :: l).map Prod.fst).Nodup) :
    (⟨l, (List.nodup_cons.1 h).2⟩ : GoMap V).get? x.1 = none := by
  rw [get?_eq_none_iff]
  exact (List.nodup_cons.1 h).1

theorem get?_eq_some_getD (m : GoMap V) (k : String) (d v : V) (h : m.get? k = some v) :
    m.getD k d = v := by
  simp [getD, h]

end GoMap

theorem contributions_cons {α : Type} (f : NeighborResult α → α → α) (ratings : GoMap (GoMap α))
    (nb : NeighborResult α) (ns : List (NeighborResult α)) (m : String) :
    contributions f ratings (nb :: ns) m
      = match neighborRating ratings nb m with
        | some r => f nb r :: contributions f ratings ns m
        | none => contributions f ratings ns m := by
  unfold contributions
  cases h : neighborRating ratings nb m <;> simp [List.filterMap_cons, h]

theorem contributions_eq_nil_iff {α : Type} (f : NeighborResult α → α → α)
    (ratings : GoMap (GoMap α)) (ns : List (NeighborResult α)) (m : String) :
    contributions f ratings ns m = [] ↔ ∀ nb ∈ ns, neighborRating ratings nb m = none := by
  induction ns with
  | nil => simp [contributions]
  | cons nb ns ih =>
    rw [contributions_cons]
    cases h : neighborRating ratings nb m <;> simp [h, ih]

theorem contributions_append {α : Type} (f : NeighborResult α → α → α)
    (ratings : GoMap (GoMap α)) (ns1 ns2 : List (NeighborResult α)) (m : String) :
    contributions f ratings (ns1 ++ ns2) m
      = contributions f ratings ns1 m ++ contributions f ratings ns2 m := by
  simp [contributions, List.filterMap_append]

section PredictLemmas

variable {α : Type} [LinearOrderedField α]

theorem accumulate_get? (T : GoMap α) (f : α → α) (l : List (String × α))
    (hl : (l.map Prod.fst).Nodup) (M : GoMap α) (m : String) :
    (accumulate T f l M).get? m
      = if T.contains m then M.get? m
        else match (⟨l, hl⟩ : GoMap α).get? m with
          | some r => some (M.getD m 0 + f r)
          | none => M.get? m := by
  unfold accumulate
  induction l generalizing M with
  | nil => simp [GoMap.get?]
  | cons e l ih =>
    rw [List.foldl_cons, ih (List.nodup_cons.1 hl).2, GoMap.get?_cons e l hl m]
    by_cases hT : T.contains m = true
    · rw [if_pos hT, if_pos hT]
      by_cases he : T.contains e.1 = true
      · rw [if_pos he]
      · rw [if_neg he, GoMap.get?_insert, if_neg]
        rintro rfl
        exact he hT
    · rw [if_neg hT, if_neg hT]
      by_cases hem : e.1 = m
      · subst hem
        rw [if_neg hT, if_pos rfl, GoMap.get?_tail_of_head e l hl]
        simp [GoMap.get?_insert]
      · have hme : ¬ m = e.1 := fun h => hem h.symm
        rw [if_neg hem]
        by_cases he : T.contains e.1 = true
        · rw [if_pos he]
        · rw [if_neg he]
          simp only [GoMap.getD, GoMap.get?_insert, if_neg hme]

theorem predictStep_foldl (T : GoMap α) (nb : NeighborResult α) (l : List (String × α))
    (acc : GoMap α × GoMap α) :
    l.foldl (predictStep T nb) acc
      = (accumulate T (fun r => nb.Similarity * r) l acc.1,
         accumulate T (fun _ => abs nb.Similarity) l acc.2) := by
  unfold accumulate
  induction l generalizing acc with
  | nil => rfl
  | cons e l ih =>
    rw [List.foldl_cons, List.foldl_cons, List.foldl_cons, ih]
    unfold predictStep
    split_ifs <;> rfl

theorem predictSums_foldl (T : GoMap α) (ratings : GoMap (GoMap α))
    (ns : List (NeighborResult α)) (acc : GoMap α × GoMap α) :
    ns.foldl
      (fun acc nb =>
        (ratings.getD nb.UserID GoMap.empty).entries.foldl (predictStep T nb) acc) acc
      = (accumulateAll T ratings (fun nb r => nb.Similarity * r) ns acc.1,
         accumulateAll T ratings (fun nb _ => abs nb.Similarity) ns acc.2) := by
  unfold accumulateAll
  induction ns generalizing acc with
  | nil => rfl
  | cons nb ns ih =>
    rw [List.foldl_cons, List.foldl_cons, List.foldl_cons, predictStep_foldl, ih]

theorem predictSums_eq (T : GoMap α) (ratings : GoMap (GoMap α))
    (ns : List (NeighborResult α)) :
    predictSums ratings T ns
      = (accumulateAll T ratings (fun nb r => nb.Similarity * r) ns GoMap.empty,
         accumulateAll T ratings (fun nb _ => abs nb.Similarity) ns GoMap.empty) :=
  predictSums_foldl T ratings ns (GoMap.empty, GoMap.empty)

theorem accumulateAll_get? (T : GoMap α) (ratings : GoMap (GoMap α))
    (f : NeighborResult α → α → α) (ns : List (NeighborResult α)) (M : GoMap α) (m : String) :
    (accumulateAll T ratings f ns M).get? m
      = if T.contains m = true ∨ contributions f ratings ns m = [] then M.get? m
        else some (M.getD m 0 + (contributions f ratings ns m).sum) := by
  unfold accumulateAll
  induction ns generalizing M with
  | nil => simp [contributions]
  | cons nb ns ih =>
    rw [List.foldl_cons, ih, contributions_cons]
    have hacc := accumulate_get? T (f nb) (ratings.getD nb.UserID GoMap.empty).entries
      (ratings.getD nb.UserID GoMap.empty).nodup M m
    have hR : (⟨(ratings.getD nb.UserID GoMap.empty).entries,
        (ratings.getD nb.UserID GoMap.empty).nodup⟩ : GoMap α).get? m
        = neighborRating ratings nb m := rfl
    rw [hR] at hacc
    by_cases hT : T.contains m = true
    · simp only [hT, true_or, if_true] at hacc ⊢
      exact hacc
    · simp only [hT, false_or, if_false, Bool.false_eq_true] at hacc ⊢
      cases hr : neighborRating ratings nb m with
      | none =>
        rw [hr] at hacc
        simp only at hacc ⊢
        have hD : (accumulate T (f nb) (ratings.getD nb.UserID GoMap.empty).entries M).getD m 0
            = M.getD m 0 := by
          show Option.getD _ _ = _
          rw [hacc]
          rfl
        rw [hD, hacc]
      | some r =>
        rw [hr] at hacc
        simp only at hacc ⊢
        have hD : (accumulate T (f nb) (ratings.getD nb.UserID GoMap.empty).entries M).getD m 0
            = M.getD m 0 + f nb r := by
          show Option.getD _ _ = _
          rw [hacc]
          rfl
        rw [hD, hacc]
        by_cases hc : contributions f ratings ns m = []
        · simp [hc]
        · simp [hc, add_assoc]

theorem predictLoop_eq (W : GoMap α) (l : List (String × α)) (recs0 : List (Recommended α)) :
    l.foldl
      (fun (recs : List (Recommended α)) (e : String × α) =>
        let w := W.getD e.1 0
        if w = 0 then recs else recs ++ [⟨e.1, e.2 / w⟩])
      recs0
    = recs0 ++ l.filterMap (fun e =>
        if W.getD e.1 0 = 0 then none else some ⟨e.1, e.2 / W.getD e.1 0⟩) := by
  induction l generalizing recs0 with
  | nil => simp
  | cons e l ih =>
    rw [List.foldl_cons, ih, List.filterMap_cons]
    by_cases hw : W.getD e.1 0 = 0
    · simp [hw]
    · simp [hw]

theorem PredictRatings_eq (target : String) (ratings : GoMap (GoMap α))
    (ns : List (NeighborResult α)) :
    PredictRatings target ratings ns
      = (accumulateAll (ratings.getD target GoMap.empty) ratings
            (fun nb r => nb.Similarity * r) ns GoMap.empty).entries.filterMap
          (fun e =>
            if (accumulateAll (ratings.getD target GoMap.empty) ratings
                (fun nb _ => abs nb.Similarity) ns GoMap.empty).getD e.1 0 = 0 then none
            else some ⟨e.1, e.2 /
              (accumulateAll (ratings.getD target GoMap.empty) ratings
                (fun nb _ => abs nb.Similarity) ns GoMap.empty).getD e.1 0⟩) := by
  unfold PredictRatings
  simp only [predictSums_eq]
  rw [predictLoop_eq, List.nil_append]

theorem filterMap_movies_sublist (W : GoMap α) (l : List (String × α)) :
    ((l.filterMap (fun e =>
        if W.getD e.1 0 = 0 then none
        else some (⟨e.1, e.2 / W.getD e.1 0⟩ : Recommended α))).map
      (fun x => x.MovieID)).Sublist (l.map Prod.fst) := by
  induction l with
  | nil => simp
  | cons e l ih =>
    rw [List.filterMap_cons]
    by_cases hw : W.getD e.1 0 = 0
    · simp only [hw, if_true, List.map_cons]
      exact List.Sublist.cons _ ih
    · simp only [hw, if_false, List.map_cons]
      exact List.Sublist.cons₂ _ ih

theorem PredictRatings_nodup (target : String) (ratings : GoMap (GoMap α))
    (ns : List (NeighborResult α)) :
    ((PredictRatings target ratings ns).map (fun x => x.MovieID)).Nodup := by
  rw [PredictRatings_eq]
  exact (filterMap_movies_sublist _ _).nodup (GoMap.nodup _)

theorem getD_accumulateAll (T : GoMap α) (ratings : GoMap (GoMap α))
    (f : NeighborResult α → α → α) (ns : List (NeighborResult α)) (m : String) :
    (accumulateAll T ratings f ns GoMap.empty).getD m 0
      = if T.contains m = true ∨ contributions f ratings ns m = [] then 0
        else (contributions f ratings ns m).sum := by
  show Option.getD _ _ = _
  rw [accumulateAll_get?]
  split_ifs
  · rfl
  · simp [GoMap.getD, GoMap.get?_empty]

/-- Membership in the result of `PredictRatings`. -/
theorem mem_PredictRatings (target : String) (ratings : GoMap (GoMap α))
    (ns : List (NeighborResult α)) (m : String) (p : α) :
    (⟨m, p⟩ : Recommended α) ∈ PredictRatings target ratings ns ↔
      ((∃ nb ∈ ns, ∃ r, neighborRating ratings nb m = some r) ∧
        (ratings.getD target GoMap.empty).contains m = false ∧
        weightSpec ratings ns m ≠ 0 ∧
        p = scoreSpec ratings ns m / weightSpec ratings ns m) := by
  have hnil : ∀ f : NeighborResult α → α → α,
      contributions f ratings ns m = [] ↔ ¬ ∃ nb ∈ ns, ∃ r, neighborRating ratings nb m = some r := by
    intro f
    rw [contributions_eq_nil_iff]
    constructor
    · rintro h ⟨nb, hnb, r, hr⟩
      rw [h nb hnb] at hr
      cases hr
    · intro h nb hnb
      cases hr : neighborRating ratings nb m with
      | none => rfl
      | some r => exact absurd ⟨nb, hnb, r, hr⟩ h
  rw [PredictRatings_eq, List.mem_filterMap]
  constructor
  · rintro ⟨e, he, hrec⟩
    have hget := GoMap.get?_of_mem _ he
    rw [accumulateAll_get?] at hget
    by_cases hw : (accumulateAll (ratings.getD target GoMap.empty) ratings
        (fun nb _ => abs nb.Similarity) ns GoMap.empty).getD e.1 0 = 0
    · simp [hw] at hrec
    · rw [if_neg hw] at hrec
      simp only [Option.some.injEq, Recommended.mk.injEq] at hrec
      obtain ⟨hm, hp⟩ := hrec
      rw [hm] at hget hw hp
      rw [getD_accumulateAll] at hw hp
      by_cases hc : (ratings.getD target GoMap.empty).contains m = true ∨
          contributions (fun nb r => nb.Similarity * r) ratings ns m = []
      · rw [if_pos hc, GoMap.get?_empty] at hget
        cases hget
      · rw [if_neg hc] at hget
        push_neg at hc
        have hsome := not_not.1 (mt (hnil _).2 hc.2)
        have hc2 : ¬ ((ratings.getD target GoMap.empty).contains m = true ∨
            contributions (fun nb _ => abs nb.Similarity) ratings ns m = []) := by
          rintro (h | h)
          · exact hc.1 h
          · exact (hnil _).1 h hsome
        rw [if_neg hc2] at hw hp
        simp only [GoMap.getD, GoMap.get?_empty, Option.getD_none, zero_add,
          Option.some.injEq] at hget
        refine ⟨hsome, by simpa using hc.1, hw, ?_⟩
        rw [← hp, ← hget]
        rfl
  · rintro ⟨hsome, hT, hw, hp⟩
    have hc : ¬ ((ratings.getD target GoMap.empty).contains m = true ∨
        contributions (fun nb r => nb.Similarity * r) ratings ns m = []) := by
      rintro (h | h)
      · rw [hT] at h
        cases h
      · exact (hnil _).1 h hsome
    have hc2 : ¬ ((ratings.getD target GoMap.empty).contains m = true ∨
        contributions (fun nb _ => abs nb.Similarity) ratings ns m = []) := by
      rintro (h | h)
      · rw [hT] at h
        cases h
      · exact (hnil _).1 h hsome
    have hget := accumulateAll_get? (ratings.getD target GoMap.empty) ratings
      (fun nb r => nb.Similarity * r) ns GoMap.empty m
    rw [if_neg hc] at hget
    simp only [GoMap.getD, GoMap.get?_empty, Option.getD_none, zero_add] at hget
    refine ⟨(m, scoreSpec ratings ns m), (GoMap.get?_eq_some_iff _ _ _).1 hget, ?_⟩
    have hW : (accumulateAll (ratings.getD target GoMap.empty) ratings
        (fun nb _ => abs nb.Similarity) ns GoMap.empty).getD m 0 = weightSpec ratings ns m := by
      rw [getD_accumulateAll, if_neg hc2]
      rfl
    simp only [hW, if_neg hw, hp]

end PredictLemmas

section SplitLemmas

variable {V : Type}

theorem getElem?_fst_inj (l : List (String × V)) (hl : (l.map Prod.fst).Nodup)
    {t1 t2 : Nat} {e1 e2 : String × V} (h1 : l[t1]? = some e1) (h2 : l[t2]? = some e2)
    (hk : e1.1 = e2.1) : t1 = t2 := by
  by_contra hne
  have hlt1 : t1 < (l.map Prod.fst).length := by
    rw [List.length_map]
    exact (List.getElem?_eq_some.1 h1).1
  have := (List.nodup_iff_getElem?_ne_getElem?.1 hl)
  rcases Nat.lt_or_gt_of_ne hne with h | h
  · have hlt2 : t2 < (l.map Prod.fst).length := by
      rw [List.length_map]
      exact (List.getElem?_eq_some.1 h2).1
    exact this t1 t2 h hlt2 (by simp [List.getElem?_map, h1, h2, hk])
  · exact this t2 t1 h hlt1 (by simp [List.getElem?_map, h1, h2, hk])

/-- The state of the loop of `splitUsersIntoChunks` after a prefix `done` of the
entries: the entry at position `t` sits in chunk `t % parts`, and nowhere else. -/
theorem split_prefix (parts : Nat) (hp : 0 < parts) (done : List (String × V)) :
    (done.map Prod.fst).Nodup →
    ∃ chunks : List (GoMap V),
      done.foldl (splitStep parts) (some (List.replicate parts GoMap.empty, 0))
        = some (chunks, done.length) ∧
      chunks.length = parts ∧
      ∀ j c, chunks[j]? = some c → ∀ k v,
        (c.get? k = some v ↔ ∃ t, done[t]? = some (k, v) ∧ t % parts = j) := by
  induction done using List.reverseRecOn with
  | nil =>
    intro _
    refine ⟨_, rfl, List.length_replicate _ _, ?_⟩
    intro j c hc k v
    rw [List.getElem?_replicate] at hc
    split_ifs at hc
    cases hc
    simp [GoMap.get?_empty]
  | append_singleton done e ih =>
    intro hnd
    rw [List.map_append, List.nodup_append] at hnd
    obtain ⟨chunks, hfold, hlen, hinv⟩ := ih hnd.1
    have hnotin : ∀ (t : Nat) (v : V), done[t]? ≠ some (e.1, v) := by
      intro t v ht
      have h1 : e.1 ∈ done.map Prod.fst :=
        List.mem_map.2 ⟨(e.1, v), List.mem_iff_getElem?.2 ⟨t, ht⟩, rfl⟩
      exact hnd.2.2 h1 (by simp)
    have hidx : done.length % parts < chunks.length := by
      rw [hlen]
      exact Nat.mod_lt _ hp
    obtain ⟨c0, hc0⟩ : ∃ c0, chunks[done.length % parts]? = some c0 :=
      ⟨_, List.getElem?_eq_getElem hidx⟩
    refine ⟨chunks.set (done.length % parts) (c0.insert e.1 e.2), ?_, ?_, ?_⟩
    · rw [List.foldl_append, hfold]
      simp only [List.foldl_cons, List.foldl_nil, splitStep,
        if_neg (Nat.pos_iff_ne_zero.1 hp), List.length_append, List.length_singleton]
      simp only [Option.some_bind, List.getD_eq_getElem?_getD, hc0, Option.getD_some]
    · rw [List.length_set, hlen]
    · intro j c hc k v
      have hsnoc : ∀ t : Nat, (done ++ [e])[t]? = some (k, v) ↔
          (done[t]? = some (k, v) ∨ (t = done.length ∧ e = (k, v))) := by
        intro t
        rcases Nat.lt_trichotomy t done.length with h | h | h
        · rw [List.getElem?_append_left h]
          constructor
          · exact Or.inl
          · rintro (h2 | ⟨h2, -⟩)
            · exact h2
            · omega
        · subst h
          rw [List.getElem?_append_right (le_refl _)]
          simp [List.getElem?_eq_none (le_refl done.length)]
        · rw [List.getElem?_append_right h.le]
          have h3 : ([e] : List (String × V))[t - done.length]? = none :=
            List.getElem?_eq_none (by simp; omega)
          rw [h3, List.getElem?_eq_none h.le]
          constructor
          · intro h4; cases h4
          · rintro (h4 | ⟨h4, -⟩)
            · cases h4
            · omega
      rw [List.getElem?_set] at hc
      by_cases hj : done.length % parts = j
      · rw [if_pos hj, if_pos hidx] at hc
        cases hc
        rw [GoMap.get?_insert]
        by_cases hk : k = e.1
        · rw [if_pos hk]
          constructor
          · intro hv
            cases hv
            exact ⟨done.length, (hsnoc _).2 (Or.inr ⟨rfl, by rw [hk]⟩), hj⟩
          · rintro ⟨t, ht, -⟩
            rcases (hsnoc t).1 ht with h | ⟨-, h⟩
            · exact absurd (hk ▸ h) (hnotin t v)
            · rw [h]
        · rw [if_neg hk, hinv _ c0 hc0 k v]
          constructor
          · rintro ⟨t, ht, htj⟩
            exact ⟨t, (hsnoc t).2 (Or.inl ht), htj.trans hj⟩
          · rintro ⟨t, ht, htj⟩
            rcases (hsnoc t).1 ht with h | ⟨-, h⟩
            · exact ⟨t, h, htj.trans hj.symm⟩
            · exact absurd (congrArg Prod.fst h).symm hk
      · rw [if_neg hj] at hc
        rw [hinv j c hc k v]
        constructor
        · rintro ⟨t, ht, htj⟩
          exact ⟨t, (hsnoc t).2 (Or.inl ht), htj⟩
        · rintro ⟨t, ht, htj⟩
          rcases (hsnoc t).1 ht with h | ⟨h, -⟩
          · exact ⟨t, h, htj⟩
          · exact absurd (h ▸ htj) hj

end SplitLemmas

theorem predict_example :
    PredictRatings "U" exampleMatrix exampleNeighbors = [⟨"m3", 23 / 7⟩] := by
  simp [PredictRatings, predictSums, predictStep, GoMap.getD, GoMap.get?, GoMap.contains,
    GoMap.insert, GoMap.empty, exampleMatrix, exampleNeighbors]
  norm_num [abs_of_pos]

theorem round_example : round ((23 / 7 : ℚ) * 10000) = 32857 := by
  rw [round_eq, Int.floor_eq_iff]
  constructor <;> norm_num

section WorkerLemmas

variable {α : Type} [LinearOrderedField α]

theorem partialStep_foldl (sqrt : α → α) (target : String) (targetRatings : GoMap α)
    (l : List (String × GoMap α)) (acc : List (NeighborResult α)) :
    l.foldl (partialStep sqrt target targetRatings) acc
      = acc ++ l.filterMap (candidateOf sqrt target targetRatings) := by
  induction l generalizing acc with
  | nil => simp
  | cons e l ih =>
    rw [List.foldl_cons, ih, List.filterMap_cons]
    unfold partialStep candidateOf
    by_cases h1 : e.1 = target
    · simp [h1]
    · by_cases h2 : 0 < CosineSimilarity sqrt targetRatings e.2
      · simp [h1, h2]
      · simp [h1, h2]

theorem mem_candidates (sqrt : α → α) (target : String) (targetRatings : GoMap α)
    (l : List (String × GoMap α)) (x : NeighborResult α) :
    x ∈ l.filterMap (candidateOf sqrt target targetRatings) ↔
      ∃ e ∈ l, e.1 ≠ target ∧ 0 < CosineSimilarity sqrt targetRatings e.2 ∧
        x = ⟨e.1, CosineSimilarity sqrt targetRatings e.2⟩ := by
  rw [List.mem_filterMap]
  constructor
  · rintro ⟨e, he, hx⟩
    unfold candidateOf at hx
    by_cases h1 : e.1 = target
    · simp [h1] at hx
    · by_cases h2 : 0 < CosineSimilarity sqrt targetRatings e.2
      · simp only [h1, h2, if_true, if_false, Option.some.injEq] at hx
        exact ⟨e, he, h1, h2, hx.symm⟩
      · simp [h1, h2] at hx
  · rintro ⟨e, he, h1, h2, rfl⟩
    refine ⟨e, he, ?_⟩
    unfold candidateOf
    simp [h1, h2]

theorem length_candidates (sqrt : α → α) (target : String) (targetRatings : GoMap α)
    (l : List (String × GoMap α)) :
    (l.filterMap (candidateOf sqrt target targetRatings)).length
      = (l.filter (fun e =>
          decide (e.1 ≠ target ∧ 0 < CosineSimilarity sqrt targetRatings e.2))).length := by
  induction l with
  | nil => rfl
  | cons e l ih =>
    rw [List.filterMap_cons, List.filter_cons]
    by_cases h1 : e.1 = target
    · have hc : candidateOf sqrt target targetRatings e = none := by
        simp [candidateOf, h1]
      simp [hc, h1, ih]
    · by_cases h2 : 0 < CosineSimilarity sqrt targetRatings e.2
      · have hc : candidateOf sqrt target targetRatings e
            = some ⟨e.1, CosineSimilarity sqrt targetRatings e.2⟩ := by
          simp [candidateOf, h1, h2]
        simp [hc, h1, h2, ih]
      · have hc : candidateOf sqrt target targetRatings e = none := by
          simp [candidateOf, h1, h2]
        simp [hc, h1, h2, ih]

theorem cosine_empty_left (sqrt : α → α) (b : GoMap α) :
    CosineSimilarity sqrt GoMap.empty b = 0 := by
  simp [CosineSimilarity, cosineLoopA, GoMap.empty]

theorem computePartialNeighbors_absent (sqrt : α → α) (s : SortSlice (NeighborResult α))
    (req : TaskRequest α) (h : req.UserChunk.get? req.TargetUser = none) :
    computePartialNeighbors sqrt s req = [] := by
  unfold computePartialNeighbors
  rw [h]

theorem computePartialNeighbors_present (sqrt : α → α) (s : SortSlice (NeighborResult α))
    (req : TaskRequest α) (tr : GoMap α) (h : req.UserChunk.get? req.TargetUser = some tr) :
    computePartialNeighbors sqrt s req
      = (s (fun x y => decide (x.Similarity > y.Similarity))
          (req.UserChunk.entries.filterMap (candidateOf sqrt req.TargetUser tr))).take req.K := by
  unfold computePartialNeighbors
  rw [h]
  simp only
  rw [TopK_eq_take, partialStep_foldl, List.nil_append]

/-- The properties of the result of `computePartialNeighbors`, the target vector
`tv` being the one read from the chunk. -/
theorem partial_neighbors_spec (sqrt : α → α) (s : SortSlice (NeighborResult α))
    (hs : SortSliceSpec s) (req : TaskRequest α) :
    (∀ x ∈ computePartialNeighbors sqrt s req,
      x.UserID ≠ req.TargetUser ∧ 0 < x.Similarity ∧
      ∃ v, req.UserChunk.get? x.UserID = some v ∧
        x.Similarity =
          CosineSimilarity sqrt (req.UserChunk.getD req.TargetUser GoMap.empty) v) ∧
    (computePartialNeighbors sqrt s req).length
      = min req.K
          (req.UserChunk.entries.filter (fun e =>
            decide (e.1 ≠ req.TargetUser ∧
              0 < CosineSimilarity sqrt
                (req.UserChunk.getD req.TargetUser GoMap.empty) e.2))).length ∧
    (∀ e ∈ req.UserChunk.entries, e.1 ≠ req.TargetUser →
      0 < CosineSimilarity sqrt (req.UserChunk.getD req.TargetUser GoMap.empty) e.2 →
      (⟨e.1, CosineSimilarity sqrt (req.UserChunk.getD req.TargetUser GoMap.empty) e.2⟩ :
        NeighborResult α) ∉ computePartialNeighbors sqrt s req →
      ∀ x ∈ computePartialNeighbors sqrt s req,
        CosineSimilarity sqrt (req.UserChunk.getD req.TargetUser GoMap.empty) e.2
          ≤ x.Similarity) := by
  cases h : req.UserChunk.get? req.TargetUser with
  | none =>
    have hD : req.UserChunk.getD req.TargetUser GoMap.empty = GoMap.empty := by
      simp [GoMap.getD, h]
    rw [computePartialNeighbors_absent sqrt s req h, hD]
    refine ⟨by simp, ?_, by simp⟩
    simp [cosine_empty_left]
  | some tr =>
    have hD : req.UserChunk.getD req.TargetUser GoMap.empty = tr := by
      simp [GoMap.getD, h]
    rw [computePartialNeighbors_present sqrt s req tr h, hD]
    have hsplit := take_drop_sorted hs (fun x : NeighborResult α => x.Similarity)
      (req.UserChunk.entries.filterMap (candidateOf sqrt req.TargetUser tr)) req.K
    refine ⟨?_, ?_, ?_⟩
    · intro x hx
      have hx2 := (spec_perm hs (fun x : NeighborResult α => x.Similarity) _).subset
        (List.mem_of_mem_take hx)
      obtain ⟨e, he, h1, h2, rfl⟩ := (mem_candidates sqrt _ tr _ x).1 hx2
      exact ⟨h1, h2, e.2, req.UserChunk.get?_of_mem he, rfl⟩
    · rw [take_sorted_length hs, length_candidates]
    · intro e he h1 h2 hnot x hx
      have hmem : (⟨e.1, CosineSimilarity sqrt tr e.2⟩ : NeighborResult α) ∈
          req.UserChunk.entries.filterMap (candidateOf sqrt req.TargetUser tr) :=
        (mem_candidates sqrt _ tr _ _).2 ⟨e, he, h1, h2, rfl⟩
      have hmem2 := hsplit.1.symm.subset hmem
      rcases List.mem_append.1 hmem2 with h3 | h3
      · exact absurd h3 hnot
      · exact hsplit.2.2 x hx _ h3

theorem candidates_eq_map (sqrt : α → α) (target : String) (targetRatings : GoMap α)
    (l : List (String × GoMap α)) :
    l.filterMap (candidateOf sqrt target targetRatings)
      = (l.filter (fun e =>
          decide (e.1 ≠ target ∧ 0 < CosineSimilarity sqrt targetRatings e.2))).map
        (fun e => (⟨e.1, CosineSimilarity sqrt targetRatings e.2⟩ : NeighborResult α)) := by
  induction l with
  | nil => rfl
  | cons e l ih =>
    rw [List.filterMap_cons, List.filter_cons]
    by_cases h1 : e.1 = target
    · have hc : candidateOf sqrt target targetRatings e = none := by
        simp [candidateOf, h1]
      simp [hc, h1, ih]
    · by_cases h2 : 0 < CosineSimilarity sqrt targetRatings e.2
      · have hc : candidateOf sqrt target targetRatings e
            = some ⟨e.1, CosineSimilarity sqrt targetRatings e.2⟩ := by
          simp [candidateOf, h1, h2]
        simp [hc, h1, h2, ih]
      · have hc : candidateOf sqrt target targetRatings e = none := by
          simp [candidateOf, h1, h2]
        simp [hc, h1, h2, ih]

/-- The result of `computePartialNeighbors` is a selection from the candidates of
the chunk: together with the candidates left out it is a rearrangement of all
of them, none left out ranks above a returned one, no user is returned twice
and the result is in non-increasing order of similarity. -/
theorem partial_neighbors_selection (sqrt : α → α) (s : SortSlice (NeighborResult α))
    (hs : SortSliceSpec s) (req : TaskRequest α) :
    (∃ omitted : List (NeighborResult α),
      (computePartialNeighbors sqrt s req ++ omitted).Perm
        ((req.UserChunk.entries.filter (fun e =>
            decide (e.1 ≠ req.TargetUser ∧
              0 < CosineSimilarity sqrt
                (req.UserChunk.getD req.TargetUser GoMap.empty) e.2))).map
          (fun e => (⟨e.1, CosineSimilarity sqrt
            (req.UserChunk.getD req.TargetUser GoMap.empty) e.2⟩ : NeighborResult α))) ∧
      ∀ x ∈ computePartialNeighbors sqrt s req, ∀ y ∈ omitted,
        y.Similarity ≤ x.Similarity) ∧
    ((computePartialNeighbors sqrt s req).map (fun x => x.UserID)).Nodup ∧
    (computePartialNeighbors sqrt s req).Pairwise (fun x y => y.Similarity ≤ x.Similarity) := by
  have hperm : ∃ omitted : List (NeighborResult α),
      (computePartialNeighbors sqrt s req ++ omitted).Perm
        ((req.UserChunk.entries.filter (fun e =>
            decide (e.1 ≠ req.TargetUser ∧
              0 < CosineSimilarity sqrt
                (req.UserChunk.getD req.TargetUser GoMap.empty) e.2))).map
          (fun e => (⟨e.1, CosineSimilarity sqrt
            (req.UserChunk.getD req.TargetUser GoMap.empty) e.2⟩ : NeighborResult α))) ∧
      (∀ x ∈ computePartialNeighbors sqrt s req, ∀ y ∈ omitted,
        y.Similarity ≤ x.Similarity) ∧
      (computePartialNeighbors sqrt s req).Pairwise
        (fun x y => y.Similarity ≤ x.Similarity) := by
    cases h : req.UserChunk.get? req.TargetUser with
    | none =>
      have hD : req.UserChunk.getD req.TargetUser GoMap.empty = GoMap.empty := by
        simp [GoMap.getD, h]
      rw [computePartialNeighbors_absent sqrt s req h, hD]
      refine ⟨[], ?_, by simp, List.Pairwise.nil⟩
      simp [cosine_empty_left]
    | some tr =>
      have hD : req.UserChunk.getD req.TargetUser GoMap.empty = tr := by
        simp [GoMap.getD, h]
      rw [computePartialNeighbors_present sqrt s req tr h, hD,
        ← candidates_eq_map sqrt req.TargetUser tr req.UserChunk.entries]
      have hsplit := take_drop_sorted hs (fun x : NeighborResult α => x.Similarity)
        (req.UserChunk.entries.filterMap (candidateOf sqrt req.TargetUser tr)) req.K
      exact ⟨_, hsplit.1, hsplit.2.2, hsplit.2.1⟩
  obtain ⟨omitted, hp, hcross, hsorted⟩ := hperm
  refine ⟨⟨omitted, hp, hcross⟩, ?_, hsorted⟩
  have hkeys : (((req.UserChunk.entries.filter (fun e =>
      decide (e.1 ≠ req.TargetUser ∧
        0 < CosineSimilarity sqrt
          (req.UserChunk.getD req.TargetUser GoMap.empty) e.2))).map
      (fun e => (⟨e.1, CosineSimilarity sqrt
        (req.UserChunk.getD req.TargetUser GoMap.empty) e.2⟩ : NeighborResult α))).map
      (fun x => x.UserID)).Nodup := by
    rw [List.map_map]
    exact (List.Sublist.map Prod.fst (List.filter_sublist _)).nodup req.UserChunk.nodup
  have hn := (hp.map (fun x : NeighborResult α => x.UserID)).nodup_iff.2 hkeys
  rw [List.map_append] at hn
  exact hn.of_append_left

end WorkerLemmas

theorem sequentialTrace_append (l1 l2 : List String) :
    sequentialTrace (l1 ++ l2) = sequentialTrace l1 ++ sequentialTrace l2 := by
  induction l1 with
  | nil => rfl
  | cons a l1 ih => simp [sequentialTrace, ih]

section CoordinatorLemmas

variable {α ε : Type}

/-- The dispatch loop when a call fails after a run of successful ones. -/
theorem gatherNeighbors_error
    (call : String → TaskRequest α → Except ε (List (NeighborResult α)))
    (k : Nat) (target : String) (before : List (String × GoMap (GoMap α)))
    (addr : String) (chunk : GoMap (GoMap α)) (after : List (String × GoMap (GoMap α)))
    (err : ε)
    (hbefore : ∀ t ∈ before, ∃ part, call t.1 ⟨target, t.2, k⟩ = Except.ok part)
    (hfail : call addr ⟨target, chunk, k⟩ = Except.error err)
    (allNeighbors : List (NeighborResult α)) (trace : List NetEvent) :
    gatherNeighbors call k target (before ++ (addr, chunk) :: after) allNeighbors trace
      = (Except.error err, trace ++ sequentialTrace (before.map Prod.fst ++ [addr])) := by
  induction before generalizing allNeighbors trace with
  | nil =>
    simp [gatherNeighbors, sendTaskToNode, hfail, sequentialTrace]
  | cons t before ih =>
    obtain ⟨a, c⟩ := t
    obtain ⟨part, hpart⟩ := hbefore (a, c) (List.mem_cons_self _ _)
    simp only at hpart
    rw [List.cons_append, gatherNeighbors]
    simp only [sendTaskToNode, hpart]
    rw [ih (fun t ht => hbefore t (List.mem_cons_of_mem _ ht))]
    simp [sequentialTrace]

/-- The dispatch loop when every call succeeds. -/
theorem gatherNeighbors_ok
    (call : String → TaskRequest α → Except ε (List (NeighborResult α)))
    (k : Nat) (target : String) (tasks : List (String × GoMap (GoMap α)))
    (hall : ∀ t ∈ tasks, ∃ part, call t.1 ⟨target, t.2, k⟩ = Except.ok part)
    (allNeighbors : List (NeighborResult α)) (trace : List NetEvent) :
    ∃ gathered, gatherNeighbors call k target tasks allNeighbors trace
      = (Except.ok gathered, trace ++ sequentialTrace (tasks.map Prod.fst)) := by
  induction tasks generalizing allNeighbors trace with
  | nil => exact ⟨allNeighbors, by simp [gatherNeighbors, sequentialTrace]⟩
  | cons t tasks ih =>
    obtain ⟨a, c⟩ := t
    obtain ⟨part, hpart⟩ := hall (a, c) (List.mem_cons_self _ _)
    simp only at hpart
    obtain ⟨gathered, hg⟩ := ih (fun t ht => hall t (List.mem_cons_of_mem _ ht))
      (allNeighbors ++ part) (trace ++ [NetEvent.issued a, NetEvent.returned a])
    refine ⟨gathered, ?_⟩
    rw [gatherNeighbors]
    simp only [sendTaskToNode, hpart, hg]
    simp [sequentialTrace]

/-- Either every call succeeds or there is a first call that fails. -/
theorem first_failure
    (call : String → TaskRequest α → Except ε (List (NeighborResult α)))
    (k : Nat) (target : String) (tasks : List (String × GoMap (GoMap α))) :
    (∀ t ∈ tasks, ∃ part, call t.1 ⟨target, t.2, k⟩ = Except.ok part) ∨
    ∃ before addr chunk after err,
      tasks = before ++ (addr, chunk) :: after ∧
      (∀ t ∈ before, ∃ part, call t.1 ⟨target, t.2, k⟩ = Except.ok part) ∧
      call addr ⟨target, chunk, k⟩ = Except.error err := by
  induction tasks with
  | nil => exact Or.inl (by simp)
  | cons t tasks ih =>
    cases h : call t.1 ⟨target, t.2, k⟩ with
    | error err => exact Or.inr ⟨[], t.1, t.2, tasks, err, rfl, by simp, h⟩
    | ok part =>
      rcases ih with hall | ⟨before, addr, chunk, after, err, htasks, hbefore, hfail⟩
      · left
        intro u hu
        rcases List.mem_cons.1 hu with rfl | hu
        · exact ⟨part, h⟩
        · exact hall u hu
      · right
        refine ⟨t :: before, addr, chunk, after, err, by rw [htasks]; rfl, ?_, hfail⟩
        intro u hu
        rcases List.mem_cons.1 hu with rfl | hu
        · exact ⟨part, h⟩
        · exact hbefore u hu

end CoordinatorLemmas

section BoundLemmas

variable {α : Type} [LinearOrderedField α]

theorem scoreSpec_cons (ratings : GoMap (GoMap α)) (nb : NeighborResult α)
    (ns : List (NeighborResult α)) (m : String) :
    scoreSpec ratings (nb :: ns) m
      = match neighborRating ratings nb m with
        | some r => nb.Similarity * r + scoreSpec ratings ns m
        | none => scoreSpec ratings ns m := by
  unfold scoreSpec
  rw [contributions_cons]
  cases neighborRating ratings nb m <;> simp

theorem weightSpec_cons (ratings : GoMap (GoMap α)) (nb : NeighborResult α)
    (ns : List (NeighborResult α)) (m : String) :
    weightSpec ratings (nb :: ns) m
      = match neighborRating ratings nb m with
        | some _ => abs nb.Similarity + weightSpec ratings ns m
        | none => weightSpec ratings ns m := by
  unfold weightSpec
  rw [contributions_cons]
  cases neighborRating ratings nb m <;> simp

/-- With positive similarities the score lies between `lo` and `hi` times the
weight, and the weight is not negative. -/
theorem score_between (ratings : GoMap (GoMap α)) (lo hi : α) (m : String)
    (ns : List (NeighborResult α))
    (hs : ∀ nb ∈ ns, 0 < nb.Similarity)
    (hr : ∀ nb ∈ ns, ∀ r, neighborRating ratings nb m = some r → lo ≤ r ∧ r ≤ hi) :
    0 ≤ weightSpec ratings ns m ∧
    lo * weightSpec ratings ns m ≤ scoreSpec ratings ns m ∧
    scoreSpec ratings ns m ≤ hi * weightSpec ratings ns m := by
  induction ns with
  | nil => simp [weightSpec, scoreSpec, contributions]
  | cons nb ns ih =>
    obtain ⟨h0, h1, h2⟩ := ih (fun x hx => hs x (List.mem_cons_of_mem _ hx))
      (fun x hx => hr x (List.mem_cons_of_mem _ hx))
    have hpos := hs nb (List.mem_cons_self _ _)
    rw [scoreSpec_cons, weightSpec_cons]
    cases hnr : neighborRating ratings nb m with
    | none => exact ⟨h0, h1, h2⟩
    | some r =>
      obtain ⟨hlo, hhi⟩ := hr nb (List.mem_cons_self _ _) r hnr
      simp only
      rw [abs_of_pos hpos]
      refine ⟨by positivity, ?_, ?_⟩
      · have h3 := mul_le_mul_of_nonneg_left hlo hpos.le
        calc lo * (nb.Similarity + weightSpec ratings ns m)
            = nb.Similarity * lo + lo * weightSpec ratings ns m := by ring
          _ ≤ nb.Similarity * r + scoreSpec ratings ns m := add_le_add h3 h1
      · have h3 := mul_le_mul_of_nonneg_left hhi hpos.le
        calc nb.Similarity * r + scoreSpec ratings ns m
            ≤ nb.Similarity * hi + hi * weightSpec ratings ns m := add_le_add h3 h2
          _ = hi * (nb.Similarity + weightSpec ratings ns m) := by ring

/-- In exact arithmetic, with positive similarities and neighbour ratings in
`[lo, hi]`, every predicted rating lies in `[lo, hi]`.  This is a fact of the
idealised model only: the rounded `float64` quotient can leave the interval in
the last place. -/
theorem predicted_between (target : String) (ratings : GoMap (GoMap α)) (lo hi : α)
    (ns : List (NeighborResult α))
    (hs : ∀ nb ∈ ns, 0 < nb.Similarity)
    (hr : ∀ nb ∈ ns, ∀ m r, neighborRating ratings nb m = some r → lo ≤ r ∧ r ≤ hi) :
    ∀ x ∈ PredictRatings target ratings ns, lo ≤ x.Predicted ∧ x.Predicted ≤ hi := by
  intro x hx
  obtain ⟨m, p⟩ := x
  obtain ⟨-, -, hw, hp⟩ := (mem_PredictRatings target ratings ns m p).1 hx
  obtain ⟨h0, h1, h2⟩ := score_between ratings lo hi m ns hs (fun nb hnb r => hr nb hnb m r)
  have hpos : 0 < weightSpec ratings ns m := lt_of_le_of_ne h0 (Ne.symm hw)
  simp only
  rw [hp]
  exact ⟨(le_div_iff₀ hpos).2 h1, (div_le_iff₀ hpos).2 h2⟩

end BoundLemmas

section SplitPositionLemmas

variable {V : Type}

/-- The user visited at position `t` is put in chunk `t % parts`, and only there. -/
theorem split_by_position (data : GoMap V) (parts : Nat) (hp : 0 < parts) :
    ∃ chunks : List (GoMap V),
      splitUsersIntoChunks data parts = some chunks ∧ chunks.length = parts ∧
      ∀ (t : Nat) (u : String) (v : V), data.entries[t]? = some (u, v) →
        ∀ (j : Nat) (c : GoMap V), chunks[j]? = some c →
          ((c.contains u = true ↔ j = t % parts) ∧ (c.get? u = some v ↔ j = t % parts)) := by
  obtain ⟨chunks, hfold, hlen, hinv⟩ := split_prefix parts hp data.entries data.nodup
  refine ⟨chunks, ?_, hlen, ?_⟩
  · rw [splitUsersIntoChunks, hfold]
    rfl
  · intro t u v ht j c hc
    have hback : j = t % parts → c.get? u = some v :=
      fun hj => (hinv j c hc u v).2 ⟨t, ht, hj.symm⟩
    have hforth : ∀ w, c.get? u = some w → j = t % parts := by
      intro w hw
      obtain ⟨t2, ht2, htj⟩ := (hinv j c hc u w).1 hw
      have := getElem?_fst_inj data.entries data.nodup ht ht2 rfl
      subst this
      exact htj.symm
    refine ⟨⟨?_, ?_⟩, ⟨hforth v, hback⟩⟩
    · intro hcu
      cases hg : c.get? u with
      | none => simp [GoMap.contains, hg] at hcu
      | some w => exact hforth w hg
    · intro hj
      simp [GoMap.contains, hback hj]

end SplitPositionLemmas

section AnalysisLemmas

variable {α : Type} [DecidableEq α]

theorem sum_addCount (m : List (α × Nat)) (k : α) (v : Nat) :
    ((addCount m k v).map Prod.snd).sum = (m.map Prod.snd).sum + v := by
  induction m with
  | nil => simp [addCount]
  | cons x m ih =>
    obtain ⟨k0, c⟩ := x
    rw [addCount]
    split_ifs
    · simp only [List.map_cons, List.sum_cons]
      omega
    · simp only [List.map_cons, List.sum_cons, ih]
      omega

theorem sum_countFold (chunk : List (Rating α)) (counts : List (α × Nat)) :
    ((chunk.foldl (fun counts r => addCount counts r.Rating 1) counts).map Prod.snd).sum
      = (counts.map Prod.snd).sum + chunk.length := by
  induction chunk generalizing counts with
  | nil => simp
  | cons r chunk ih =>
    rw [List.foldl_cons, ih, sum_addCount, List.length_cons]
    omega

theorem sum_mergeFold (loc counts : List (α × Nat)) :
    ((loc.foldl (fun counts kv => addCount counts kv.1 kv.2) counts).map Prod.snd).sum
      = (counts.map Prod.snd).sum + (loc.map Prod.snd).sum := by
  induction loc generalizing counts with
  | nil => simp
  | cons kv loc ih =>
    rw [List.foldl_cons, ih, sum_addCount, List.map_cons, List.sum_cons]
    omega

theorem sum_chunksFold (chunks : List (List (Rating α))) (counts : List (α × Nat)) :
    ((chunks.foldl
        (fun counts chunk =>
          (localCounts chunk).foldl (fun counts kv => addCount counts kv.1 kv.2) counts)
        counts).map Prod.snd).sum
      = (counts.map Prod.snd).sum + (chunks.map List.length).sum := by
  induction chunks generalizing counts with
  | nil => simp
  | cons chunk chunks ih =>
    rw [List.foldl_cons, ih, sum_mergeFold, localCounts, sum_countFold, List.map_cons,
      List.sum_cons]
    simp only [List.map_nil, List.sum_nil]
    omega

/-- The counts of the distribution add up to the number of ratings in the chunks. -/
theorem analyzeRatings_sum (ratings : List (Rating α)) :
    ((analyzeRatings ratings).1.map Prod.snd).sum
      = ((ratingChunks ratings).map List.length).sum := by
  rw [analyzeRatings]
  simp only
  rw [sum_chunksFold]
  simp

end AnalysisLemmas

section ChunkLemmas

variable {α : Type}

/-- Full chunks: while `(i + fuel) * chunkSize` stays within the slice, every chunk
has `chunkSize` ratings. -/
theorem chunkLoop_full (ratings : List (Rating α)) (chunkSize : Nat) (hc : 0 < chunkSize)
    (fuel : Nat) : ∀ i : Nat, (i + fuel) * chunkSize ≤ ratings.length →
      ((chunkLoop ratings chunkSize fuel i).map List.length).sum = fuel * chunkSize := by
  induction fuel with
  | zero => intro i _; simp [chunkLoop]
  | succ fuel ih =>
    intro i hi
    have h1 : (i + 1) * chunkSize ≤ (i + (fuel + 1)) * chunkSize :=
      Nat.mul_le_mul_right _ (by omega)
    have h2 : i * chunkSize + chunkSize ≤ ratings.length := by
      have : (i + 1) * chunkSize = i * chunkSize + chunkSize := by ring
      omega
    have h3 : ¬ (i * chunkSize ≥ ratings.length) := by omega
    have h4 : ¬ (i * chunkSize + chunkSize > ratings.length) := by omega
    rw [chunkLoop]
    simp only [h3, h4, if_false]
    rw [List.map_cons, List.sum_cons, ih (i + 1) (by rw [show i + 1 + fuel = i + (fuel + 1) by omega]; exact hi)]
    rw [List.length_take, List.length_drop]
    have : (fuel + 1) * chunkSize = fuel * chunkSize + chunkSize := by ring
    omega

/-- The number of ratings in the chunks of `analyzeRatings`. -/
theorem ratingChunks_length (ratings : List (Rating α)) :
    ((ratingChunks ratings).map List.length).sum
      = if ratings.length < workerCount then ratings.length
        else workerCount * (ratings.length / workerCount) := by
  unfold ratingChunks
  by_cases h : ratings.length / workerCount = 0
  · have hlt : ratings.length < workerCount :=
      (Nat.div_eq_zero_iff (by decide : 0 < workerCount)).1 h
    simp only [h, if_true, hlt]
    by_cases hz : ratings.length = 0
    · simp [workerCount, chunkLoop, hz]
    · have hpos : 0 < ratings.length := Nat.pos_of_ne_zero hz
      simp [workerCount, chunkLoop, hz, List.length_take]
  · have hge : ¬ ratings.length < workerCount := by
      intro hlt
      exact h (Nat.div_eq_of_lt hlt)
    simp only [h, if_false, hge]
    rw [chunkLoop_full ratings _ (Nat.pos_of_ne_zero h) workerCount 0
      (by rw [Nat.zero_add]; exact Nat.mul_div_le _ _)]

end ChunkLemmas

section DistributedLemmas

variable {α ε : Type} [LinearOrderedField α]

theorem distributedRecommendation_eq
    (sortNeighbors : SortSlice (NeighborResult α)) (sortRecs : SortSlice (Recommended α))
    (call : String → TaskRequest α → Except ε (List (NeighborResult α)))
    (userRatings : GoMap (GoMap α)) (nodes : List String) (k topN : Nat)
    (targetUser : String) (chunks : List (GoMap (GoMap α)))
    (hsplit : splitUsersIntoChunks userRatings nodes.length = some chunks) :
    distributedRecommendation sortNeighbors sortRecs call userRatings nodes k topN targetUser
      = some
          ((match (gatherNeighbors call k targetUser (nodes.zip chunks) [] []).1 with
            | Except.error err => Except.error err
            | Except.ok allNeighbors =>
              Except.ok (TopNRecommendations sortRecs
                (PredictRatings targetUser userRatings (TopK sortNeighbors allNeighbors k))
                topN)),
           (gatherNeighbors call k targetUser (nodes.zip chunks) [] []).2) := by
  unfold distributedRecommendation
  rw [hsplit]
  simp only
  rcases hg : gatherNeighbors call k targetUser (nodes.zip chunks) [] [] with ⟨r, tr⟩
  cases r <;> rfl

end DistributedLemmas

/-! # The claims -/

/-- C2: `CosineSimilarity(a, b)` is `dot / (sqrt normA * sqrt normB)` with the dot
product summed over the movies rated in both vectors only and each norm summed
over every movie of its own vector, and it is `0` when either norm is `0`. -/
theorem C2_cosine_formula {α : Type} [LinearOrderedField α] (sqrt : α → α) (a b : GoMap α) :
    CosineSimilarity sqrt a b =
      if (∑ m in a.keys.toFinset, a.getD m 0 ^ 2) = 0 ∨
          (∑ m in b.keys.toFinset, b.getD m 0 ^ 2) = 0 then 0
      else (∑ m in a.keys.toFinset ∩ b.keys.toFinset, a.getD m 0 * b.getD m 0) /
        (sqrt (∑ m in a.keys.toFinset, a.getD m 0 ^ 2) *
          sqrt (∑ m in b.keys.toFinset, b.getD m 0 ^ 2)) :=
  cosine_eq_spec sqrt a b

section ClaimsTop

variable {α : Type} [LinearOrderedField α]

/-- C4 as stated fails: two neighbours of equal similarity stay in their input
order, here with the larger user id first. -/
theorem C4_counterexample :
    ¬ (TopK insertionSortLess tiedNeighbors 2).Pairwise
      (fun x y => x.Similarity > y.Similarity ∨
        (x.Similarity = y.Similarity ∧ x.UserID < y.UserID)) := by
  norm_num [TopK, insertionSortLess, insertLess, tiedNeighbors]
  decide

/-- C4 (amended): for every list and every `k`, the list `TopK` returns has at
most `k` entries and is sorted by non-increasing similarity; the order of
entries of equal similarity is left to `sort.Slice`. -/
theorem C4_TopK_size_and_order (s : SortSlice (NeighborResult α)) (hs : SortSliceSpec s)
    (list : List (NeighborResult α)) (k : Nat) :
    (TopK s list k).length ≤ k ∧
      (TopK s list k).Pairwise (fun x y => y.Similarity ≤ x.Similarity) := by
  rw [TopK_eq_take]
  exact ⟨List.length_take_le _ _,
    (take_drop_sorted hs (fun x : NeighborResult α => x.Similarity) list k).2.1⟩

/-- C4 (amended), at a concrete input. -/
theorem C4_TopK_size_and_order_witness :
    SortSliceSpec (insertionSortLess : SortSlice (NeighborResult ℚ)) ∧
    ((TopK insertionSortLess tiedNeighbors 1).length ≤ 1 ∧
      (TopK insertionSortLess tiedNeighbors 1).Pairwise
        (fun x y => y.Similarity ≤ x.Similarity)) :=
  ⟨insertionSortLess_spec,
    C4_TopK_size_and_order insertionSortLess insertionSortLess_spec tiedNeighbors 1⟩

/-- C5 as stated fails: with a `sort.Slice` that is not stable (here the gap-6
pass followed by insertion sort) the neighbour `b` is in the top 2 of the whole
pool but not in the top 2 merged from the two chunks, whose user ids are
disjoint. -/
theorem C5_counterexample :
    SortSliceSpec (gapInsertionSortLess : SortSlice (NeighborResult ℚ)) ∧
    (∀ x ∈ chunkOne, ∀ y ∈ chunkTwo, x.UserID ≠ y.UserID) ∧
    (⟨"b", 1 / 2⟩ : NeighborResult ℚ) ∈ TopK gapInsertionSortLess (chunkOne ++ chunkTwo) 2 ∧
    (⟨"b", 1 / 2⟩ : NeighborResult ℚ) ∉
      TopK gapInsertionSortLess
        (TopK gapInsertionSortLess chunkOne 2 ++ TopK gapInsertionSortLess chunkTwo 2) 2 := by
  refine ⟨gapInsertionSortLess_spec, by simp [chunkOne, chunkTwo], ?_, ?_⟩
  · norm_num [TopK, gapInsertionSortLess, gapPassLess, gapPassLess_short, insertionSortLess,
      insertLess, chunkOne, chunkTwo]
  · norm_num [TopK, gapInsertionSortLess, gapPassLess_short, insertionSortLess,
      insertLess, chunkOne, chunkTwo]
    decide

/-- C5 (amended): for local sizes `k1, k2 ≥ K`, the top-`K` merged from the local
top-`k1` and top-`k2` carries the same sequence of similarity values as the
top-`K` of the whole pool, and when no two candidates of the pool have the
same similarity the two lists are equal. -/
theorem C5_merge_exact (s : SortSlice (NeighborResult α)) (hs : SortSliceSpec s)
    (L1 L2 : List (NeighborResult α)) (K k1 k2 : Nat) (h1 : K ≤ k1) (h2 : K ≤ k2) :
    (TopK s (TopK s L1 k1 ++ TopK s L2 k2) K).map (fun x => x.Similarity)
        = (TopK s (L1 ++ L2) K).map (fun x => x.Similarity) ∧
    (((L1 ++ L2).map (fun x => x.Similarity)).Nodup →
      TopK s (TopK s L1 k1 ++ TopK s L2 k2) K = TopK s (L1 ++ L2) K) := by
  simp only [TopK_eq_take]
  exact ⟨merged_keys_eq hs (fun x : NeighborResult α => x.Similarity) L1 L2 K k1 k2 h1 h2,
    merged_eq_of_nodup hs (fun x : NeighborResult α => x.Similarity) L1 L2 K k1 k2 h1 h2⟩

/-- C5 (amended), at a concrete input. -/
theorem C5_merge_exact_witness :
    SortSliceSpec (gapInsertionSortLess : SortSlice (NeighborResult ℚ)) ∧ 2 ≤ 2 ∧ 2 ≤ 3 ∧
    ((TopK gapInsertionSortLess
          (TopK gapInsertionSortLess chunkOne 2 ++ TopK gapInsertionSortLess chunkTwo 3) 2).map
        (fun x => x.Similarity)
        = (TopK gapInsertionSortLess (chunkOne ++ chunkTwo) 2).map (fun x => x.Similarity) ∧
    (((chunkOne ++ chunkTwo).map (fun x => x.Similarity)).Nodup →
      TopK gapInsertionSortLess
          (TopK gapInsertionSortLess chunkOne 2 ++ TopK gapInsertionSortLess chunkTwo 3) 2
        = TopK gapInsertionSortLess (chunkOne ++ chunkTwo) 2)) :=
  ⟨gapInsertionSortLess_spec, le_refl 2, by decide,
    C5_merge_exact gapInsertionSortLess gapInsertionSortLess_spec chunkOne chunkTwo 2 2 3
      (le_refl 2) (by decide)⟩

end ClaimsTop

section ClaimsPredict

variable {α : Type} [LinearOrderedField α]

/-- C6: `PredictRatings` returns exactly one entry for each movie that is rated by
at least one listed neighbour, is not rated by the target and has aggregate
weight `Σ_i |similarity_i|` different from `0`, and no other entry; the predicted
rating of the entry is `Σ_i (similarity_i * rating_i) / Σ_i |similarity_i|` over
the listed neighbours who rated the movie. -/
theorem C6_PredictRatings_entries (target : String) (ratings : GoMap (GoMap α))
    (neighbors : List (NeighborResult α)) :
    ((PredictRatings target ratings neighbors).map (fun x => x.MovieID)).Nodup ∧
    ∀ (m : String) (p : α),
      (⟨m, p⟩ : Recommended α) ∈ PredictRatings target ratings neighbors ↔
        ((∃ nb ∈ neighbors, ∃ r, neighborRating ratings nb m = some r) ∧
          (ratings.getD target GoMap.empty).contains m = false ∧
          weightSpec ratings neighbors m ≠ 0 ∧
          p = scoreSpec ratings neighbors m / weightSpec ratings neighbors m) :=
  ⟨PredictRatings_nodup target ratings neighbors,
    fun m p => mem_PredictRatings target ratings neighbors m p⟩

/-- C7 as stated fails: the movie `m3`, not rated by the target `U`, is rated `4`
by the only listed neighbour `A`, whose similarity is `-1/2`; the predicted
rating is `-4`, not `4`. -/
theorem C7_counterexample :
    neighborRating exampleMatrix ⟨"A", -1 / 2⟩ "m3" = some 4 ∧
    (exampleMatrix.getD "U" GoMap.empty).contains "m3" = false ∧
    PredictRatings "U" exampleMatrix negativeNeighbor = [⟨"m3", -4⟩] := by
  refine ⟨by decide, by decide, ?_⟩
  simp [PredictRatings, predictSums, predictStep, GoMap.getD, GoMap.get?, GoMap.contains,
    GoMap.insert, GoMap.empty, exampleMatrix, negativeNeighbor]
  norm_num [abs_of_pos]

/-- C7 (amended): if a movie not rated by the target is rated by exactly one
neighbour of the list, with rating `r` and similarity `s`, then for `s ≠ 0`
`PredictRatings` returns an entry for that movie and its predicted rating is
the quotient `(s * r) / |s|`, and for `s = 0` it returns no entry for that
movie.  The quotient is not simplified to `r` or `-r`: that step cancels `s`,
which rounded arithmetic does not allow. -/
theorem C7_single_neighbor_quotient (target : String) (ratings : GoMap (GoMap α))
    (before after : List (NeighborResult α)) (nb : NeighborResult α) (m : String) (r : α)
    (hr : neighborRating ratings nb m = some r)
    (hbefore : ∀ x ∈ before, neighborRating ratings x m = none)
    (hafter : ∀ x ∈ after, neighborRating ratings x m = none)
    (ht : (ratings.getD target GoMap.empty).contains m = false) :
    (nb.Similarity ≠ 0 →
      ∀ p : α, (⟨m, p⟩ : Recommended α) ∈
        PredictRatings target ratings (before ++ nb :: after) ↔
          p = nb.Similarity * r / abs nb.Similarity) ∧
    (nb.Similarity = 0 →
      ∀ p : α, (⟨m, p⟩ : Recommended α) ∉
        PredictRatings target ratings (before ++ nb :: after)) := by
  have hc : ∀ f : NeighborResult α → α → α,
      contributions f ratings (before ++ nb :: after) m = [f nb r] := by
    intro f
    rw [contributions_append, contributions_cons, hr,
      (contributions_eq_nil_iff f ratings before m).2 hbefore,
      (contributions_eq_nil_iff f ratings after m).2 hafter]
    rfl
  have hw : weightSpec ratings (before ++ nb :: after) m = abs nb.Similarity := by
    rw [weightSpec, hc]
    simp
  have hsc : scoreSpec ratings (before ++ nb :: after) m = nb.Similarity * r := by
    rw [scoreSpec, hc]
    simp
  constructor
  · intro hs p
    rw [mem_PredictRatings, hw, hsc]
    constructor
    · exact fun h => h.2.2.2
    · intro h
      exact ⟨⟨nb, by simp, r, hr⟩, ht, abs_ne_zero.2 hs, h⟩
  · intro hs p hmem
    rw [mem_PredictRatings, hw] at hmem
    exact hmem.2.2.1 (abs_eq_zero.2 hs)

/-- C7 (amended), at the movie `m3` of the example with the neighbour `A` alone. -/
theorem C7_single_neighbor_quotient_witness :
    neighborRating exampleMatrix ⟨"A", 9 / 10⟩ "m3" = some 4 ∧
    (exampleMatrix.getD "U" GoMap.empty).contains "m3" = false ∧
    (((9 / 10 : ℚ) ≠ 0 →
      ∀ p : ℚ, (⟨"m3", p⟩ : Recommended ℚ) ∈
        PredictRatings "U" exampleMatrix ([] ++ ⟨"A", 9 / 10⟩ :: []) ↔
          p = 9 / 10 * 4 / abs (9 / 10)) ∧
    ((9 / 10 : ℚ) = 0 →
      ∀ p : ℚ, (⟨"m3", p⟩ : Recommended ℚ) ∉
        PredictRatings "U" exampleMatrix ([] ++ ⟨"A", 9 / 10⟩ :: []))) :=
  ⟨by decide, by decide,
    C7_single_neighbor_quotient "U" exampleMatrix [] [] ⟨"A", 9 / 10⟩ "m3" 4 (by decide)
      (by simp) (by simp) (by decide)⟩

/-- C8 as stated fails: the only entry returned on the example is for `m3`, and
its predicted rating does not round to `3.4286`. -/
theorem C8_counterexample :
    ¬ ∃ p : ℚ, PredictRatings "U" exampleMatrix exampleNeighbors = [⟨"m3", p⟩] ∧
      roundTo4 p = 34286 / 10000 := by
  rintro ⟨p, hp, hround⟩
  rw [predict_example] at hp
  simp only [List.cons.injEq, Recommended.mk.injEq, true_and, and_true] at hp
  subst hp
  rw [roundTo4, round_example] at hround
  norm_num at hround

/-- C8 (amended): on the example `PredictRatings` returns no entry for `m1` or
`m2` and exactly one entry, for `m3`, whose predicted rating
`(0.9*4.0 + 0.5*2.0)/(0.9+0.5) = 23/7` is `3.2857` when rounded to 4 decimal
places. -/
theorem C8_example :
    PredictRatings "U" exampleMatrix exampleNeighbors = [⟨"m3", 23 / 7⟩] ∧
    ((9 / 10 : ℚ) * 4 + 1 / 2 * 2) / (9 / 10 + 1 / 2) = 23 / 7 ∧
    roundTo4 (23 / 7) = 32857 / 10000 := by
  refine ⟨predict_example, by norm_num, ?_⟩
  rw [roundTo4, round_example]
  norm_num

end ClaimsPredict

section ClaimsTopN

variable {α : Type} [LinearOrderedField α]

/-- C9 as stated fails: two predictions of equal rating stay in their input
order, here with the larger movie id first. -/
theorem C9_counterexample :
    ¬ (TopNRecommendations insertionSortLess tiedRecs 2).Pairwise
      (fun x y => x.Predicted > y.Predicted ∨
        (x.Predicted = y.Predicted ∧ x.MovieID < y.MovieID)) := by
  norm_num [TopNRecommendations, insertionSortLess, insertLess, tiedRecs]
  decide

/-- C9 (amended): `TopNRecommendations` returns at most `n` entries, all taken
from the input (the returned and the omitted entries together rearrange the
input), sorted by non-increasing predicted rating, and no omitted entry has a
predicted rating greater than a returned one; the order of entries of equal
predicted rating is left to `sort.Slice`. -/
theorem C9_TopN_selection (s : SortSlice (Recommended α)) (hs : SortSliceSpec s)
    (recs : List (Recommended α)) (n : Nat) :
    (TopNRecommendations s recs n).length ≤ n ∧
    (TopNRecommendations s recs n).Pairwise (fun x y => y.Predicted ≤ x.Predicted) ∧
    ∃ omitted : List (Recommended α),
      (TopNRecommendations s recs n ++ omitted).Perm recs ∧
      ∀ x ∈ TopNRecommendations s recs n, ∀ y ∈ omitted, y.Predicted ≤ x.Predicted := by
  rw [TopN_eq_take]
  have h := take_drop_sorted hs (fun x : Recommended α => x.Predicted) recs n
  exact ⟨List.length_take_le _ _, h.2.1, _, h.1, h.2.2⟩

/-- C9 (amended), at a concrete input. -/
theorem C9_TopN_selection_witness :
    SortSliceSpec (insertionSortLess : SortSlice (Recommended ℚ)) ∧
    ((TopNRecommendations insertionSortLess tiedRecs 1).length ≤ 1 ∧
    (TopNRecommendations insertionSortLess tiedRecs 1).Pairwise
      (fun x y => y.Predicted ≤ x.Predicted) ∧
    ∃ omitted : List (Recommended ℚ),
      (TopNRecommendations insertionSortLess tiedRecs 1 ++ omitted).Perm tiedRecs ∧
      ∀ x ∈ TopNRecommendations insertionSortLess tiedRecs 1, ∀ y ∈ omitted,
        y.Predicted ≤ x.Predicted) :=
  ⟨insertionSortLess_spec,
    C9_TopN_selection insertionSortLess insertionSortLess_spec tiedRecs 1⟩

end ClaimsTopN

/-- C10: for `P ≥ 1`, `splitUsersIntoChunks` returns exactly `P` chunks; every user
of the matrix, hence every candidate user, appears in exactly one chunk, mapped
to its own rating vector, and no chunk contains a user absent from the matrix. -/
theorem C10_split_partition {V : Type} (data : GoMap V) (P : Nat) (hP : 1 ≤ P) :
    ∃ chunks : List (GoMap V),
      splitUsersIntoChunks data P = some chunks ∧ chunks.length = P ∧
      (∀ (u : String) (v : V), data.get? u = some v →
        ∃ i, i < P ∧ (∃ c, chunks[i]? = some c ∧ c.get? u = some v) ∧
          ∀ (j : Nat) (c : GoMap V), j ≠ i → chunks[j]? = some c → c.get? u = none) ∧
      (∀ (j : Nat) (c : GoMap V) (u : String),
        chunks[j]? = some c → c.contains u = true → data.contains u = true) := by
  obtain ⟨chunks, hfold, hlen, hinv⟩ := split_prefix P hP data.entries data.nodup
  refine ⟨chunks, ?_, hlen, ?_, ?_⟩
  · rw [splitUsersIntoChunks, hfold]
    rfl
  · intro u v huv
    obtain ⟨t, ht⟩ := List.mem_iff_getElem?.1 ((data.get?_eq_some_iff u v).1 huv)
    have hlt : t % P < chunks.length := by
      rw [hlen]
      exact Nat.mod_lt _ hP
    refine ⟨t % P, Nat.mod_lt _ hP, ⟨chunks[t % P], List.getElem?_eq_getElem hlt, ?_⟩, ?_⟩
    · exact (hinv _ _ (List.getElem?_eq_getElem hlt) u v).2 ⟨t, ht, rfl⟩
    · intro j c hj hc
      cases hcu : c.get? u with
      | none => rfl
      | some w =>
        obtain ⟨t2, ht2, htj⟩ := (hinv j c hc u w).1 hcu
        have := getElem?_fst_inj data.entries data.nodup ht ht2 rfl
        subst this
        exact absurd htj.symm hj
  · intro j c u hc hcu
    cases hg : c.get? u with
    | none => simp [GoMap.contains, hg] at hcu
    | some w =>
      obtain ⟨t, ht, -⟩ := (hinv j c hc u w).1 hg
      have hmem : (u, w) ∈ data.entries := List.mem_iff_getElem?.2 ⟨t, ht⟩
      simp [GoMap.contains, (data.get?_eq_some_iff u w).2 hmem]

/-- C10, at the example matrix split into 2 chunks. -/
theorem C10_split_partition_witness :
    1 ≤ 2 ∧
    ∃ chunks : List (GoMap (GoMap ℚ)),
      splitUsersIntoChunks exampleMatrix 2 = some chunks ∧ chunks.length = 2 ∧
      (∀ (u : String) (v : GoMap ℚ), exampleMatrix.get? u = some v →
        ∃ i, i < 2 ∧ (∃ c, chunks[i]? = some c ∧ c.get? u = some v) ∧
          ∀ (j : Nat) (c : GoMap (GoMap ℚ)), j ≠ i → chunks[j]? = some c →
            c.get? u = none) ∧
      (∀ (j : Nat) (c : GoMap (GoMap ℚ)) (u : String),
        chunks[j]? = some c → c.contains u = true → exampleMatrix.contains u = true) :=
  ⟨by decide, C10_split_partition exampleMatrix 2 (by decide)⟩

/-- C11 fails on the code: with the two configured endpoints the target `U` of the
example matrix is in the first chunk only; the second task does not carry its
vector, and the worker that reads `req.UserChunk[req.TargetUser]` there gets
`nil` and returns nothing. -/
theorem C11_target_in_one_chunk_only :
    exampleMatrix.contains "U" = true ∧
    (splitUsersIntoChunks exampleMatrix Api.nodes.length).map
        (fun chunks => chunks.map (fun c => c.contains "U")) = some [true, false] ∧
    ∀ (sqrt : ℚ → ℚ) (s : SortSlice (NeighborResult ℚ)),
      (splitUsersIntoChunks exampleMatrix Api.nodes.length).bind
          (fun chunks => chunks[1]?.map
            (fun c => computePartialNeighbors sqrt s ⟨"U", c, Api.K⟩)) = some [] := by
  refine ⟨by decide, by decide, ?_⟩
  intro sqrt s
  have h : ∃ c0 c1, splitUsersIntoChunks exampleMatrix Api.nodes.length = some [c0, c1] ∧
      c1.contains "U" = false := ⟨_, _, rfl, by decide⟩
  obtain ⟨c0, c1, hsplit, hc1⟩ := h
  have hnone : c1.get? "U" = none := by
    cases hg : c1.get? "U" with
    | none => rfl
    | some v => simp [GoMap.contains, hg] at hc1
  rw [hsplit]
  simp [computePartialNeighbors_absent sqrt s ⟨"U", c1, Api.K⟩ hnone]

/-- C12 as stated fails: the example matrix enumerated in two orders puts the user
`U` in the first chunk for one order and in the second chunk for the other. -/
theorem C12_counterexample :
    exampleMatrix.entries.Perm exampleMatrixSwapped.entries ∧
    (splitUsersIntoChunks exampleMatrix 2).map
        (fun chunks => chunks.map (fun c => c.contains "U")) = some [true, false] ∧
    (splitUsersIntoChunks exampleMatrixSwapped 2).map
        (fun chunks => chunks.map (fun c => c.contains "U")) = some [false, true] := by
  refine ⟨?_, by decide, by decide⟩
  exact List.Perm.swap _ _ _

/-- C12 (amended): the assignment follows the enumeration order of the map: for
`P ≥ 1` the user visited at position `t` is put, with its vector, in chunk
`t % P` and in no other chunk. -/
theorem C12_split_by_position {V : Type} (data : GoMap V) (P : Nat) (hP : 1 ≤ P) :
    ∃ chunks : List (GoMap V),
      splitUsersIntoChunks data P = some chunks ∧ chunks.length = P ∧
      ∀ (t : Nat) (u : String) (v : V), data.entries[t]? = some (u, v) →
        ∀ (j : Nat) (c : GoMap V), chunks[j]? = some c →
          ((c.contains u = true ↔ j = t % P) ∧ (c.get? u = some v ↔ j = t % P)) :=
  split_by_position data P hP

/-- C12 (amended), at the example matrix split into 2 chunks. -/
theorem C12_split_by_position_witness :
    1 ≤ 2 ∧
    ∃ chunks : List (GoMap (GoMap ℚ)),
      splitUsersIntoChunks exampleMatrix 2 = some chunks ∧ chunks.length = 2 ∧
      ∀ (t : Nat) (u : String) (v : GoMap ℚ), exampleMatrix.entries[t]? = some (u, v) →
        ∀ (j : Nat) (c : GoMap (GoMap ℚ)), chunks[j]? = some c →
          ((c.contains u = true ↔ j = t % 2) ∧ (c.get? u = some v ↔ j = t % 2)) :=
  ⟨by decide, C12_split_by_position exampleMatrix 2 (by decide)⟩

section ClaimsWorker

variable {α : Type} [LinearOrderedField α]

/-- C13: with the target vector read from the chunk, `computePartialNeighbors`
returns the `k` highest-similarity candidates of the chunk among those other
than the target whose similarity to the target vector is greater than `0`:
every entry returned is such a candidate paired with its similarity; the
result has `min(k, m)` entries, `m` being the number of such candidates; no
such candidate left out has a similarity greater than a returned one; the
result followed by the candidates left out is a rearrangement of the list of
all such candidates, each paired with its similarity; no user is returned
twice; and the result is in non-increasing order of similarity. -/
theorem C13_partial_neighbors (sqrt : α → α) (s : SortSlice (NeighborResult α))
    (hs : SortSliceSpec s) (req : TaskRequest α) :
    (∀ x ∈ computePartialNeighbors sqrt s req,
      x.UserID ≠ req.TargetUser ∧ 0 < x.Similarity ∧
      ∃ v, req.UserChunk.get? x.UserID = some v ∧
        x.Similarity =
          CosineSimilarity sqrt (req.UserChunk.getD req.TargetUser GoMap.empty) v) ∧
    (computePartialNeighbors sqrt s req).length
      = min req.K
          (req.UserChunk.entries.filter (fun e =>
            decide (e.1 ≠ req.TargetUser ∧
              0 < CosineSimilarity sqrt
                (req.UserChunk.getD req.TargetUser GoMap.empty) e.2))).length ∧
    (∀ e ∈ req.UserChunk.entries, e.1 ≠ req.TargetUser →
      0 < CosineSimilarity sqrt (req.UserChunk.getD req.TargetUser GoMap.empty) e.2 →
      (⟨e.1, CosineSimilarity sqrt (req.UserChunk.getD req.TargetUser GoMap.empty) e.2⟩ :
        NeighborResult α) ∉ computePartialNeighbors sqrt s req →
      ∀ x ∈ computePartialNeighbors sqrt s req,
        CosineSimilarity sqrt (req.UserChunk.getD req.TargetUser GoMap.empty) e.2
          ≤ x.Similarity) ∧
    (∃ omitted : List (NeighborResult α),
      (computePartialNeighbors sqrt s req ++ omitted).Perm
        ((req.UserChunk.entries.filter (fun e =>
            decide (e.1 ≠ req.TargetUser ∧
              0 < CosineSimilarity sqrt
                (req.UserChunk.getD req.TargetUser GoMap.empty) e.2))).map
          (fun e => (⟨e.1, CosineSimilarity sqrt
            (req.UserChunk.getD req.TargetUser GoMap.empty) e.2⟩ : NeighborResult α))) ∧
      ∀ x ∈ computePartialNeighbors sqrt s req, ∀ y ∈ omitted,
        y.Similarity ≤ x.Similarity) ∧
    ((computePartialNeighbors sqrt s req).map (fun x => x.UserID)).Nodup ∧
    (computePartialNeighbors sqrt s req).Pairwise (fun x y => y.Similarity ≤ x.Similarity) :=
  ⟨(partial_neighbors_spec sqrt s hs req).1, (partial_neighbors_spec sqrt s hs req).2.1,
    (partial_neighbors_spec sqrt s hs req).2.2, partial_neighbors_selection sqrt s hs req⟩

end ClaimsWorker

/-- C13, at the task of finding the 2 nearest neighbours of `U` in the matrix of
three users. -/
theorem C13_partial_neighbors_witness :
    SortSliceSpec (insertionSortLess : SortSlice (NeighborResult ℝ)) ∧
    ((∀ x ∈ computePartialNeighbors Real.sqrt insertionSortLess ⟨"U", unitMatrix, 2⟩,
      x.UserID ≠ "U" ∧ 0 < x.Similarity ∧
      ∃ v, unitMatrix.get? x.UserID = some v ∧
        x.Similarity = CosineSimilarity Real.sqrt (unitMatrix.getD "U" GoMap.empty) v) ∧
    (computePartialNeighbors Real.sqrt insertionSortLess ⟨"U", unitMatrix, 2⟩).length
      = min 2
          (unitMatrix.entries.filter (fun e =>
            decide (e.1 ≠ "U" ∧
              0 < CosineSimilarity Real.sqrt (unitMatrix.getD "U" GoMap.empty) e.2))).length ∧
    (∀ e ∈ unitMatrix.entries, e.1 ≠ "U" →
      0 < CosineSimilarity Real.sqrt (unitMatrix.getD "U" GoMap.empty) e.2 →
      (⟨e.1, CosineSimilarity Real.sqrt (unitMatrix.getD "U" GoMap.empty) e.2⟩ :
        NeighborResult ℝ) ∉ computePartialNeighbors Real.sqrt insertionSortLess
          ⟨"U", unitMatrix, 2⟩ →
      ∀ x ∈ computePartialNeighbors Real.sqrt insertionSortLess ⟨"U", unitMatrix, 2⟩,
        CosineSimilarity Real.sqrt (unitMatrix.getD "U" GoMap.empty) e.2 ≤ x.Similarity) ∧
    (∃ omitted : List (NeighborResult ℝ),
      (computePartialNeighbors Real.sqrt insertionSortLess ⟨"U", unitMatrix, 2⟩
          ++ omitted).Perm
        ((unitMatrix.entries.filter (fun e =>
            decide (e.1 ≠ "U" ∧
              0 < CosineSimilarity Real.sqrt (unitMatrix.getD "U" GoMap.empty) e.2))).map
          (fun e => (⟨e.1, CosineSimilarity Real.sqrt
            (unitMatrix.getD "U" GoMap.empty) e.2⟩ : NeighborResult ℝ))) ∧
      ∀ x ∈ computePartialNeighbors Real.sqrt insertionSortLess ⟨"U", unitMatrix, 2⟩,
        ∀ y ∈ omitted, y.Similarity ≤ x.Similarity) ∧
    ((computePartialNeighbors Real.sqrt insertionSortLess ⟨"U", unitMatrix, 2⟩).map
      (fun x => x.UserID)).Nodup ∧
    (computePartialNeighbors Real.sqrt insertionSortLess ⟨"U", unitMatrix, 2⟩).Pairwise
      (fun x y => y.Similarity ≤ x.Similarity)) :=
  ⟨insertionSortLess_spec,
    C13_partial_neighbors Real.sqrt insertionSortLess insertionSortLess_spec
      ⟨"U", unitMatrix, 2⟩⟩

section ClaimsCoordinator

variable {α ε : Type} [LinearOrderedField α]

/-- C14: with at least one endpoint, `distributedRecommendation` returns the error
of the call that fails, unchanged and without a list, whatever the calls before
it returned; a failing call always makes the result an error of a failed call;
and a list is returned only when every call succeeded. -/
theorem C14_fail_fast
    (sortNeighbors : SortSlice (NeighborResult α)) (sortRecs : SortSlice (Recommended α))
    (call : String → TaskRequest α → Except ε (List (NeighborResult α)))
    (userRatings : GoMap (GoMap α)) (nodes : List String) (k topN : Nat)
    (targetUser : String) (hn : nodes ≠ []) :
    ∃ (chunks : List (GoMap (GoMap α))) (result : Except ε (List (Recommended α)))
      (events : List NetEvent),
      splitUsersIntoChunks userRatings nodes.length = some chunks ∧
      distributedRecommendation sortNeighbors sortRecs call userRatings nodes k topN
        targetUser = some (result, events) ∧
      (∀ before addr chunk after err,
        nodes.zip chunks = before ++ (addr, chunk) :: after →
        (∀ t ∈ before, ∃ part, call t.1 ⟨targetUser, t.2, k⟩ = Except.ok part) →
        call addr ⟨targetUser, chunk, k⟩ = Except.error err →
        result = Except.error err) ∧
      ((∃ t ∈ nodes.zip chunks, ∃ err, call t.1 ⟨targetUser, t.2, k⟩ = Except.error err) →
        ∃ t ∈ nodes.zip chunks, ∃ err,
          call t.1 ⟨targetUser, t.2, k⟩ = Except.error err ∧ result = Except.error err) ∧
      (∀ recs, result = Except.ok recs →
        ∀ t ∈ nodes.zip chunks, ∃ part, call t.1 ⟨targetUser, t.2, k⟩ = Except.ok part) := by
  obtain ⟨chunks, hsplit, -, -⟩ := split_by_position userRatings nodes.length
    (List.length_pos.2 hn)
  refine ⟨chunks, _, _, hsplit,
    distributedRecommendation_eq sortNeighbors sortRecs call userRatings nodes k topN
      targetUser chunks hsplit, ?_, ?_, ?_⟩
  · intro before addr chunk after err htasks hbefore hfail
    rw [htasks, gatherNeighbors_error call k targetUser before addr chunk after err hbefore
      hfail]
  · rintro ⟨t, ht, err, herr⟩
    rcases first_failure call k targetUser (nodes.zip chunks) with
      hall | ⟨before, addr, chunk, after, err2, htasks, hbefore, hfail⟩
    · obtain ⟨part, hpart⟩ := hall t ht
      rw [hpart] at herr
      cases herr
    · refine ⟨(addr, chunk), by rw [htasks]; simp, err2, hfail, ?_⟩
      rw [htasks, gatherNeighbors_error call k targetUser before addr chunk after err2
        hbefore hfail]
  · intro recs hrecs
    rcases first_failure call k targetUser (nodes.zip chunks) with
      hall | ⟨before, addr, chunk, after, err2, htasks, hbefore, hfail⟩
    · exact hall
    · rw [htasks, gatherNeighbors_error call k targetUser before addr chunk after err2
        hbefore hfail] at hrecs
      cases hrecs

/-- C14, on a network where the second endpoint fails. -/
theorem C14_fail_fast_witness :
    Api.nodes ≠ [] ∧
    ∃ (chunks : List (GoMap (GoMap ℚ))) (result : Except String (List (Recommended ℚ)))
      (events : List NetEvent),
      splitUsersIntoChunks exampleMatrix Api.nodes.length = some chunks ∧
      distributedRecommendation insertionSortLess insertionSortLess firstOnlyCall
        exampleMatrix Api.nodes Api.K Api.TopN "U" = some (result, events) ∧
      (∀ before addr chunk after err,
        Api.nodes.zip chunks = before ++ (addr, chunk) :: after →
        (∀ t ∈ before, ∃ part, firstOnlyCall t.1 ⟨"U", t.2, Api.K⟩ = Except.ok part) →
        firstOnlyCall addr ⟨"U", chunk, Api.K⟩ = Except.error err →
        result = Except.error err) ∧
      ((∃ t ∈ Api.nodes.zip chunks, ∃ err,
          firstOnlyCall t.1 ⟨"U", t.2, Api.K⟩ = Except.error err) →
        ∃ t ∈ Api.nodes.zip chunks, ∃ err,
          firstOnlyCall t.1 ⟨"U", t.2, Api.K⟩ = Except.error err ∧
            result = Except.error err) ∧
      (∀ recs, result = Except.ok recs →
        ∀ t ∈ Api.nodes.zip chunks, ∃ part,
          firstOnlyCall t.1 ⟨"U", t.2, Api.K⟩ = Except.ok part) :=
  ⟨by decide,
    C14_fail_fast insertionSortLess insertionSortLess firstOnlyCall exampleMatrix Api.nodes
      Api.K Api.TopN "U" (by decide)⟩

/-- C15 as stated fails: the empty user id is absent from the example matrix, and
the answer is the status 400, not the not-found status 404. -/
theorem C15_counterexample :
    exampleMatrix.contains "" = false ∧
    handleRecommendUser insertionSortLess insertionSortLess silentCall exampleMatrix
        Api.nodes Api.K Api.TopN ""
      = some (HttpResponse.badRequest, []) ∧
    (HttpResponse.badRequest : HttpResponse ℚ String) ≠ HttpResponse.notFound := by
  refine ⟨by decide, rfl, ?_⟩
  intro h
  cases h

/-- C15 (amended): a request for a user id that is absent from the rating matrix
contacts no worker; the answer is the not-found status 404 when the id is not
empty, and the status 400 when it is empty. -/
theorem C15_unknown_user
    (sortNeighbors : SortSlice (NeighborResult α)) (sortRecs : SortSlice (Recommended α))
    (call : String → TaskRequest α → Except ε (List (NeighborResult α)))
    (userRatings : GoMap (GoMap α)) (nodes : List String) (k topN : Nat) (user : String)
    (habsent : userRatings.contains user = false) :
    handleRecommendUser sortNeighbors sortRecs call userRatings nodes k topN user
      = some (if user = "" then HttpResponse.badRequest else HttpResponse.notFound, []) := by
  unfold handleRecommendUser
  by_cases h : user = ""
  · rw [if_pos h, if_pos h]
  · rw [if_neg h, if_neg h, if_pos habsent]

/-- C15 (amended), for the user id `Z` and the example matrix. -/
theorem C15_unknown_user_witness :
    exampleMatrix.contains "Z" = false ∧
    handleRecommendUser insertionSortLess insertionSortLess silentCall exampleMatrix
        Api.nodes Api.K Api.TopN "Z"
      = some (if "Z" = "" then HttpResponse.badRequest else HttpResponse.notFound, []) :=
  ⟨by decide,
    C15_unknown_user insertionSortLess insertionSortLess silentCall exampleMatrix Api.nodes
      Api.K Api.TopN "Z" (by decide)⟩

/-- C16 as stated fails: with the two configured endpoints the call to the second
endpoint is issued after the call to the first one has returned. -/
theorem C16_counterexample :
    (distributedRecommendation insertionSortLess insertionSortLess silentCall exampleMatrix
        Api.nodes Api.K Api.TopN "U").map Prod.snd
      = some [NetEvent.issued "pcd-pc4_nodo1:9000", NetEvent.returned "pcd-pc4_nodo1:9000",
          NetEvent.issued "pcd-pc4_nodo2:9001", NetEvent.returned "pcd-pc4_nodo2:9001"] ∧
    ¬ issuedBeforeReturned
      [NetEvent.issued "pcd-pc4_nodo1:9000", NetEvent.returned "pcd-pc4_nodo1:9000",
        NetEvent.issued "pcd-pc4_nodo2:9001", NetEvent.returned "pcd-pc4_nodo2:9001"] := by
  constructor
  · simp [distributedRecommendation, splitUsersIntoChunks, splitStep, gatherNeighbors,
      sendTaskToNode, silentCall, Api.nodes, exampleMatrix, GoMap.empty]
  · intro h
    have := h 1 2 "pcd-pc4_nodo1:9000" "pcd-pc4_nodo2:9001" rfl rfl
    omega

/-- C16 (amended): the coordinator calls the endpoints one after the other, in
the order of the list: the network events are those of sequential calls to a
first part `called` of the endpoints, each call issued after the previous one
has returned.  When a list of recommendations is returned, every endpoint has
been called and every call succeeded.  When an error is returned, the last
endpoint called is the one whose call failed with that error and every call
before it succeeded: no call is issued after a failed one. -/
theorem C16_sequential_dispatch
    (sortNeighbors : SortSlice (NeighborResult α)) (sortRecs : SortSlice (Recommended α))
    (call : String → TaskRequest α → Except ε (List (NeighborResult α)))
    (userRatings : GoMap (GoMap α)) (nodes : List String) (k topN : Nat)
    (targetUser : String) (hn : nodes ≠ []) :
    ∃ (chunks : List (GoMap (GoMap α))) (result : Except ε (List (Recommended α)))
      (called rest : List String),
      splitUsersIntoChunks userRatings nodes.length = some chunks ∧
      distributedRecommendation sortNeighbors sortRecs call userRatings nodes k topN
        targetUser = some (result, sequentialTrace called) ∧
      nodes = called ++ rest ∧
      (∀ recs, result = Except.ok recs →
        rest = [] ∧
        ∀ t ∈ nodes.zip chunks, ∃ part, call t.1 ⟨targetUser, t.2, k⟩ = Except.ok part) ∧
      (∀ err, result = Except.error err →
        ∃ before addr chunk after,
          nodes.zip chunks = before ++ (addr, chunk) :: after ∧
          (∀ t ∈ before, ∃ part, call t.1 ⟨targetUser, t.2, k⟩ = Except.ok part) ∧
          call addr ⟨targetUser, chunk, k⟩ = Except.error err ∧
          called = before.map Prod.fst ++ [addr] ∧
          rest = after.map Prod.fst) := by
  obtain ⟨chunks, hsplit, hlen, -⟩ := split_by_position userRatings nodes.length
    (List.length_pos.2 hn)
  have hfst : (nodes.zip chunks).map Prod.fst = nodes :=
    List.map_fst_zip nodes chunks (by rw [hlen])
  rw [distributedRecommendation_eq sortNeighbors sortRecs call userRatings nodes k topN
    targetUser chunks hsplit]
  rcases first_failure call k targetUser (nodes.zip chunks) with
    hall | ⟨before, addr, chunk, after, err, htasks, hbefore, hfail⟩
  · obtain ⟨gathered, hg⟩ := gatherNeighbors_ok call k targetUser (nodes.zip chunks) hall [] []
    rw [hg, hfst]
    refine ⟨chunks, _, nodes, [], hsplit, by rw [List.nil_append], by simp,
      fun _ _ => ⟨rfl, hall⟩, ?_⟩
    intro err herr
    cases herr
  · rw [htasks, gatherNeighbors_error call k targetUser before addr chunk after err hbefore
      hfail]
    refine ⟨chunks, _, before.map Prod.fst ++ [addr], after.map Prod.fst, hsplit,
      by rw [List.nil_append], ?_, ?_, ?_⟩
    · rw [← hfst, htasks]
      simp
    · intro recs hrecs
      cases hrecs
    · intro err2 herr
      have he : err = err2 := by
        injection herr
      subst he
      exact ⟨before, addr, chunk, after, htasks, hbefore, hfail, rfl, rfl⟩

/-- C16 (amended), on a network where every call fails. -/
theorem C16_sequential_dispatch_witness :
    Api.nodes ≠ [] ∧
    ∃ (chunks : List (GoMap (GoMap ℚ))) (result : Except String (List (Recommended ℚ)))
      (called rest : List String),
      splitUsersIntoChunks exampleMatrix Api.nodes.length = some chunks ∧
      distributedRecommendation insertionSortLess insertionSortLess failingCall
        exampleMatrix Api.nodes Api.K Api.TopN "U" = some (result, sequentialTrace called) ∧
      Api.nodes = called ++ rest ∧
      (∀ recs, result = Except.ok recs →
        rest = [] ∧
        ∀ t ∈ Api.nodes.zip chunks, ∃ part,
          failingCall t.1 ⟨"U", t.2, Api.K⟩ = Except.ok part) ∧
      (∀ err, result = Except.error err →
        ∃ before addr chunk after,
          Api.nodes.zip chunks = before ++ (addr, chunk) :: after ∧
          (∀ t ∈ before, ∃ part, failingCall t.1 ⟨"U", t.2, Api.K⟩ = Except.ok part) ∧
          failingCall addr ⟨"U", chunk, Api.K⟩ = Except.error err ∧
          called = before.map Prod.fst ++ [addr] ∧
          rest = after.map Prod.fst) :=
  ⟨by decide,
    C16_sequential_dispatch insertionSortLess insertionSortLess failingCall exampleMatrix
      Api.nodes Api.K Api.TopN "U" (by decide)⟩

end ClaimsCoordinator

/-- C17 fails on the code: for the target `U` among three users with the same
rating, split over the two configured endpoints, the distributed search finds
the neighbour `B` only, while the in-process search finds `A` and `B`. -/
theorem C17_distributed_misses_neighbors :
    distributedNeighbors insertionSortLess
        (handleConnection Real.sqrt insertionSortLess :
          String → TaskRequest ℝ → Except String (List (NeighborResult ℝ)))
        unitMatrix Api.nodes 2 "U"
      = some (Except.ok [⟨"B", 1⟩]) ∧
    computeNeighborsParallel Real.sqrt insertionSortLess id "U" unitMatrix 1 2
      = [⟨"A", 1⟩, ⟨"B", 1⟩] := by
  constructor
  · simp [distributedNeighbors, splitUsersIntoChunks, splitStep, gatherNeighbors,
      sendTaskToNode, handleConnection, computePartialNeighbors, partialStep,
      CosineSimilarity, cosineLoopA, cosineLoopB, Api.nodes, unitMatrix, GoMap.empty,
      GoMap.insert, GoMap.get?, GoMap.getD, TopK, insertionSortLess, insertLess]
  · simp [computeNeighborsParallel, neighborJob, CosineSimilarity, cosineLoopA, cosineLoopB,
      GoMap.getD, GoMap.get?, unitMatrix, insertionSortLess, insertLess]

/-- C19 fails on the code: of 9 ratings the 8 chunks of one rating each leave the
last rating out, so the counts of the distribution add up to 8 while the total
handed to `saveSummary` is 9. -/
theorem C19_remainder_dropped :
    nineRatings.length = 9 ∧
    (ratingChunks nineRatings).map List.length = [1, 1, 1, 1, 1, 1, 1, 1] ∧
    ((analyzeRatings nineRatings).1.map Prod.snd).sum = 8 ∧
    (analyzeRatings nineRatings).2 = 9 := by
  refine ⟨rfl, ?_, ?_, rfl⟩
  · simp [ratingChunks, chunkLoop, workerCount, nineRatings]
  · rw [analyzeRatings_sum, ratingChunks_length]
    simp [workerCount, nineRatings]

end PCD
